import Mathlib

/-!
Verification of a Gaussian-elimination module (`gaussian_elimination.py`).

The module works on augmented matrices represented as Python lists of lists
of numbers.  We embed matrices as `List (List ℚ)` (the source targets exact
small integer / binary entries; `ℚ` models Python's exact arithmetic on such
inputs).  Out-of-range indexing is modelled with `List.getD` defaults; the
two genuinely reachable Python exceptions (the `IndexError` on `xlist[0]`
for an empty candidate list, and the `TypeError` raised by `len(None)` when
`gauss_eliminate` feeds `None` into `solve_row_echelon_form`) are modelled
explicitly by an error constructor of the result type.
-/

abbrev Mat : Type := List (List ℚ)

/-- `ent M r c` is entry `M[r][c]`, defaulting to `0` out of range. -/
def ent (M : Mat) (r c : ℕ) : ℚ := (M.getD r []).getD c 0

/-- Map a function over a list together with the index, starting the index
count at `s`.  Used to model Python's in-place indexed updates. -/
def idxMapFrom (f : ℕ → α → α) : ℕ → List α → List α
  | _, [] => []
  | s, a :: t => f s a :: idxMapFrom f (s + 1) t

/-- Indexed map starting at index `0`. -/
def idxMap (f : ℕ → α → α) (l : List α) : List α := idxMapFrom f 0 l

/-- Partial-pivot search: fold over `k = i+1 .. numRows-1` keeping the pair
`(max_el, max_row)`, seeded with `(abs L[i][i], i)`; faithful to the source's
strict-`>` update, ties broken by earliest index. -/
def findMax (M : Mat) (i numRows : ℕ) : ℚ × ℕ :=
  (List.range' (i + 1) (numRows - (i + 1))).foldl
    (fun st k => if |ent M k i| > st.1 then (|ent M k i|, k) else st)
    (|ent M i i|, i)

/-- Replace the entries of `row` at columns `i ≤ c < numCols` by the
corresponding entries of `src` (one half of the source's swap loop, which
runs `for k in range(i, num_cols)`). -/
def mixRow (row src : List ℚ) (i numCols : ℕ) : List ℚ :=
  idxMap (fun c x => if i ≤ c ∧ c < numCols then src.getD c 0 else x) row

/-- The swap step of `row_echelon_form`: exchange the entries of rows `i`
and `mr` in columns `i .. numCols - 1` only. -/
def swapStep (M : Mat) (i mr numCols : ℕ) : Mat :=
  idxMap (fun r row =>
    if r = i then mixRow row (M.getD mr []) i numCols
    else if r = mr then mixRow row (M.getD i []) i numCols
    else row) M

/-- One row update of the elimination loop: row `k` gets
`L[k][j] := 0` at `j = i` and `L[k][j] += c * L[i][j]` for `i < j < numCols`. -/
def elimEntryRow (src : List ℚ) (c : ℚ) (i numCols : ℕ) (row : List ℚ) : List ℚ :=
  idxMap (fun j x =>
    if i ≤ j ∧ j < numCols then (if j = i then 0 else x + c * src.getD j 0) else x) row

/-- The body of the source's elimination loop for one `k`: skip if the pivot
`L[i][i]` is zero, otherwise apply the multiplier `c = -L[k][i]/L[i][i]`. -/
def elimRow (M : Mat) (i k numCols : ℕ) : Mat :=
  if ent M i i = 0 then M
  else
    let c : ℚ := -(ent M k i) / ent M i i
    idxMap (fun r row => if r = k then elimEntryRow (M.getD i []) c i numCols row else row) M

/-- Eliminate below the pivot: run `elimRow` for `k = i+1 .. numRows-1`. -/
def elimBelow (M : Mat) (i numRows numCols : ℕ) : Mat :=
  (List.range' (i + 1) (numRows - (i + 1))).foldl (fun A k => elimRow A i k numCols) M

/-- One pivot-column iteration of `row_echelon_form`: pivot search, swap,
elimination below. -/
def pivotStep (numRows numCols : ℕ) (M : Mat) (i : ℕ) : Mat :=
  let mr := (findMax M i numRows).2
  elimBelow (swapStep M i mr numCols) i numRows numCols

/-- The full elimination loop `for i in range(min(num_cols, num_rows))`,
with `num_rows` and `num_cols` read once at entry. -/
def echelonLoop (M : Mat) : Mat :=
  (List.range (min (M.getD 0 []).length M.length)).foldl
    (pivotStep M.length (M.getD 0 []).length) M

/-- The inner `while j < num_rows` loop of
`remove_duplicate_row_echelon_form`: compare `L[i]` with `L[j]`, delete
`L[j]` on equality, and increment `j` in either case (so the element that
slides into slot `j` after a deletion is skipped, as in the source). -/
def dedupInner (i : ℕ) (L : Mat) (j : ℕ) : Mat :=
  if h : j < L.length then
    if L.getD i [] = L.getD j [] then dedupInner i (L.eraseIdx j) (j + 1)
    else dedupInner i L (j + 1)
  else L
  termination_by L.length - j
  decreasing_by
  · have := List.length_eraseIdx_of_lt h
    omega
  · omega

/-- The inner dedup loop never lengthens the matrix. -/
theorem dedupInner_length_le (i : ℕ) (L : Mat) (j : ℕ) :
    (dedupInner i L j).length ≤ L.length := by
  induction L, j using dedupInner.induct i with
  | case1 L j h heq ih =>
    rw [dedupInner]
    simp only [dif_pos h, if_pos heq]
    have := List.length_eraseIdx_of_lt h
    omega
  | case2 L j h heq ih =>
    rw [dedupInner]
    simp only [dif_pos h, if_neg heq]
    exact ih
  | case3 L j h =>
    rw [dedupInner]
    simp only [dif_neg h]
    exact le_refl _

/-- The outer `while i < num_rows` loop of
`remove_duplicate_row_echelon_form`. -/
def dedupOuter (L : Mat) (i : ℕ) : Mat :=
  if _ : i < L.length then dedupOuter (dedupInner i L (i + 1)) (i + 1) else L
  termination_by L.length - i
  decreasing_by
    rename_i h
    have := dedupInner_length_le i L (i + 1)
    omega

def remove_duplicate_row_echelon_form (L : Mat) : Mat := dedupOuter L 0

/-- `row_echelon_form`: `None` on zero rows, otherwise the elimination loop
followed by duplicate-row removal. -/
def row_echelon_form (L : Mat) : Option Mat :=
  if L.length = 0 then none
  else some (remove_duplicate_row_echelon_form (echelonLoop L))

/-- Result of the solver.  `noneR` models Python `None` (empty input);
`vec` models a returned list whose entries are numbers (`some q`) or Python
`None` sentinels (`none`); `err` models a raised exception. -/
inductive SolveResult : Type
  | noneR : SolveResult
  | err : SolveResult
  | vec : List (Option ℚ) → SolveResult
  deriving DecidableEq

/-- The synthetic basis-completion row
`[1 if ((kk == k) or (kk == num_cols - 1)) else 0 for kk in range(num_cols)]`. -/
def unitRow (k numCols : ℕ) : List ℚ :=
  (List.range numCols).map (fun kk => if kk = k ∨ kk = numCols - 1 then 1 else 0)

/-- The `for k in range(num_rows)` insertion loop of
`solve_row_echelon_form` (the bound is the entry value of `num_rows`; the
condition `R[k][k] == 0` reads the current, possibly grown, matrix). -/
def insertLoop (numCols : ℕ) (R : Mat) (origRows : ℕ) : Mat :=
  (List.range origRows).foldl
    (fun A k => if ent A k k = 0 then A.take k ++ [unitRow k numCols] ++ A.drop k else A) R

/-- Case-A basis completion: runs the insertion loop only when
`num_rows < num_cols - 1` (Python integer comparison, hence over `ℤ`). -/
def completeBasis (R : Mat) : Mat :=
  if (R.length : ℤ) < ((R.getD 0 []).length : ℤ) - 1 then
    insertLoop (R.getD 0 []).length R R.length
  else R

/-- `set([R[row][col] for row in range(num_rows)]) == set([0])`:
all of the listed entries are `0` (the matrices reaching this test are
nonempty, so set equality reduces to this). -/
def colAllZero (R : Mat) (numRows col : ℕ) : Bool :=
  (List.range numRows).all (fun row => ent R row col == 0)

/-- First column in `range(num_cols - 1)` that is identically zero. -/
def findZeroCol (R : Mat) (numRows numCols : ℕ) : Option ℕ :=
  (List.range (numCols - 1)).find? (fun col => colAllZero R numRows col)

/-- The non-RHS entries `[R[row][col] for col in range(num_cols - 1)]`. -/
def rowCoeffs (R : Mat) (row numCols : ℕ) : List ℚ :=
  (List.range (numCols - 1)).map (fun col => ent R row col)

/-- Python's `%` on exact numbers: `a % b = a - b * floor(a / b)`
(`Int.fdiv` of numerator by denominator is the floor, the denominator being
positive). -/
def pymod (a b : ℚ) : ℚ := a - b * ((a / b).num.fdiv ((a / b).den : ℤ) : ℚ)

/-- The candidate rows whose non-RHS entries sum to an even value. -/
def evenRows (R : Mat) (numRows numCols : ℕ) : List (List ℚ) :=
  ((List.range numRows).filter
    (fun row => pymod (rowCoeffs R row numCols).sum 2 == 0)).map
    (fun row => rowCoeffs R row numCols)

/-- Python `max` over a nonempty list (the empty case is never reached by
the source: it indexes `xlist[0]` first). -/
def pymax : List ℚ → ℚ
  | [] => 0
  | a :: t => t.foldl max a

/-- Null-space candidate aggregation: per index, the maximum entry across
the candidate rows. -/
def aggregateMax (xlist : List (List ℚ)) : List ℚ :=
  (List.range (xlist.getD 0 []).length).map
    (fun ind => pymax (xlist.map (fun l => l.getD ind 0)))

/-- The back-substitution update `R[j][num_cols-1] -= R[j][i] * x[i]` for
all rows `j < i`. -/
def updateRhs (numCols i : ℕ) (v : ℚ) (R : Mat) : Mat :=
  idxMap (fun j row =>
    if j < i then row.set (numCols - 1) (row.getD (numCols - 1) 0 - row.getD i 0 * v)
    else row) R

/-- The back-substitution loop, processing row indices `n-1, n-2, …, 0`
(the argument is the number of indices still to process).  A zero at
`R[i][q]` deletes slot `i` of the solution vector; otherwise slot `i` is
solved and the right-hand sides of earlier rows are updated. -/
def backSub (numCols : ℕ) : ℕ → Mat × List ℚ → Mat × List ℚ
  | 0, st => st
  | n + 1, (R, x) =>
    let q := min n (numCols - 2)
    if ent R n q = 0 then backSub numCols n (R, x.eraseIdx n)
    else
      let v := ent R n (numCols - 1) / ent R n q
      backSub numCols n (updateRhs numCols n v R, x.set n v)

/-- `solve_row_echelon_form` on a list-of-lists matrix.  `.err` models the
`IndexError` raised by `xlist[0]` when no even-parity candidate row exists. -/
def solve_row_echelon_form (R : Mat) : SolveResult :=
  if R.length = 0 then SolveResult.noneR
  else
    let R1 := completeBasis R
    let numRows := R1.length
    let numCols := (R1.getD 0 []).length
    if (numRows : ℤ) < (numCols : ℤ) - 1 then
      if (numRows : ℤ) = (numCols : ℤ) - 2 then
        match findZeroCol R1 numRows numCols with
        | some col =>
          SolveResult.vec (((List.range (numCols - 1)).map
            (fun i => if i = col then (1 : ℚ) else 0)).map some)
        | none =>
          let xlist := evenRows R1 numRows numCols
          if xlist.length = 0 then SolveResult.err
          else SolveResult.vec ((aggregateMax xlist).map some)
      else SolveResult.vec (List.replicate numRows none)
    else
      SolveResult.vec ((backSub numCols numRows (R1, List.replicate numRows 0)).2.map some)

/-- `gauss_eliminate` pipes `row_echelon_form` into
`solve_row_echelon_form`; a `None` row-echelon result (zero-row input) is
passed to `solve_row_echelon_form`, where Python raises a `TypeError` at
`len(None)`, modelled by `.err`. -/
def gauss_eliminate (L : Mat) : SolveResult :=
  match row_echelon_form L with
  | none => SolveResult.err
  | some R => solve_row_echelon_form R

/-- `set(l) == set([0])`: `l` is nonempty and all entries are `0`. -/
def isZeroSetRow (l : List ℚ) : Bool := !l.isEmpty && l.all (fun x => x == 0)

/-- `rank`: number of rows of the row-echelon form that are not identically
zero; `0` when `row_echelon_form` returns `None`. -/
def rank (A : Mat) : ℕ :=
  match row_echelon_form A with
  | none => 0
  | some R => (R.filter (fun l => !(isZeroSetRow l))).length

/-! ### Easy concrete claims -/

/-- C6: for the underdetermined GF(2)-style input `[[1,1,0,0],[0,1,1,0]]`
(two equations, three unknowns), `gauss_eliminate` returns `[1, 1, 1]`,
via the even-parity-row reconstruction branch. -/
theorem gauss_eliminate_gf2_example :
    gauss_eliminate [[1, 1, 0, 0], [0, 1, 1, 0]] =
      SolveResult.vec [some 1, some 1, some 1] := by
  with_unfolding_all decide

/-- C7: the deduplicator is not idempotent.  On three identical rows a
single pass removes only one duplicate (after `del L[j]` the index `j` is
still incremented, skipping the row that slid into slot `j`), so a second
pass removes one more. -/
theorem dedup_not_idempotent_example :
    remove_duplicate_row_echelon_form [[0], [0], [0]] = [[0], [0]] ∧
    remove_duplicate_row_echelon_form
      (remove_duplicate_row_echelon_form [[0], [0], [0]]) = [[0]] ∧
    remove_duplicate_row_echelon_form
        (remove_duplicate_row_echelon_form [[0], [0], [0]]) ≠
      remove_duplicate_row_echelon_form [[0], [0], [0]] := by
  with_unfolding_all decide

/-- C8: on three identical rows (the docstring's own example row
`[0,0,1,0]`), `remove_duplicate_row_echelon_form` keeps a second copy: a
row equal to an earlier row survives, contradicting the removal contract. -/
theorem dedup_keeps_adjacent_duplicate_example :
    remove_duplicate_row_echelon_form [[0, 0, 1, 0], [0, 0, 1, 0], [0, 0, 1, 0]] =
      [[0, 0, 1, 0], [0, 0, 1, 0]] := by
  with_unfolding_all decide

/-- C2 (counterexample): on the zero-row input, `gauss_eliminate` does not
return a sentinel: `row_echelon_form` yields `None`, which
`solve_row_echelon_form` receives and Python raises `TypeError` at
`len(None)` (modelled by `.err`). -/
theorem gauss_eliminate_nil_raises : gauss_eliminate [] = SolveResult.err := by
  with_unfolding_all decide

/-- C2 (amended): on zero-row input, `row_echelon_form` and
`solve_row_echelon_form` return their `None` sentinels without raising,
but the composition `gauss_eliminate` raises (models `len(None)`). -/
theorem empty_input_behavior :
    row_echelon_form [] = none ∧
    solve_row_echelon_form [] = SolveResult.noneR ∧
    gauss_eliminate [] = SolveResult.err := by
  with_unfolding_all decide

/-- C5 (counterexample): `[[1,0,0,0]]` reaches the unsolvable branch
(`num_rows = 1`, `num_cols = 4`, no synthetic row inserted since
`R[0][0] ≠ 0`); the result has one `None` sentinel, not
`num_cols - 1 = 3` of them. -/
theorem unsolvable_sentinel_count_example :
    solve_row_echelon_form [[1, 0, 0, 0]] = SolveResult.vec [none] ∧
    ([none] : List (Option ℚ)).length ≠ (([[1, 0, 0, 0]] : Mat).getD 0 []).length - 1 := by
  with_unfolding_all decide

/-- C5 (amended): whenever the completed matrix still has
`num_rows < num_cols - 1` but not `num_rows = num_cols - 2`,
`solve_row_echelon_form` returns one `None` sentinel per ROW
(`num_rows` entries), alongside the printed diagnostic. -/
theorem unsolvable_returns_row_count_sentinels (R : Mat) (h0 : ¬R.length = 0)
    (h1 : ((completeBasis R).length : ℤ) < (((completeBasis R).getD 0 []).length : ℤ) - 1)
    (h2 : ¬((completeBasis R).length : ℤ) = (((completeBasis R).getD 0 []).length : ℤ) - 2) :
    solve_row_echelon_form R = SolveResult.vec (List.replicate (completeBasis R).length none) := by
  unfold solve_row_echelon_form
  simp only [if_neg h0, if_pos h1, if_neg h2]

/-- Witness for `unsolvable_returns_row_count_sentinels` at `[[1,0,0,0]]`. -/
theorem unsolvable_returns_row_count_sentinels_witness :
    solve_row_echelon_form [[1, 0, 0, 0]] =
      SolveResult.vec (List.replicate (completeBasis [[1, 0, 0, 0]]).length none) ∧
    (completeBasis [[1, 0, 0, 0]]).length = 1 :=
  ⟨unsolvable_returns_row_count_sentinels [[1, 0, 0, 0]]
      (by with_unfolding_all decide) (by with_unfolding_all decide)
      (by with_unfolding_all decide),
    by with_unfolding_all decide⟩

/-- C3 (counterexample): `[[1,2,5]]` is an echelon matrix with
`num_rows = num_cols - 2`, no identically-zero non-RHS column, and no
even-sum row; `solve_row_echelon_form` crashes on it (the `IndexError`
from `xlist[0]` with `xlist` empty) instead of returning a vector. -/
theorem solve_no_parity_row_crashes_example :
    solve_row_echelon_form [[1, 2, 5]] = SolveResult.err := by
  with_unfolding_all decide

/-- C3 (amended): when the completed matrix has `num_rows = num_cols - 2`,
no identically-zero non-RHS column, and no even-sum candidate row,
`solve_row_echelon_form` crashes (models the `IndexError` raised by
`xlist[0]`) rather than returning a vector. -/
theorem solve_no_parity_row_crashes (R : Mat) (h0 : ¬R.length = 0)
    (h1 : ((completeBasis R).length : ℤ) < (((completeBasis R).getD 0 []).length : ℤ) - 1)
    (h2 : ((completeBasis R).length : ℤ) = (((completeBasis R).getD 0 []).length : ℤ) - 2)
    (h3 : findZeroCol (completeBasis R) (completeBasis R).length
        ((completeBasis R).getD 0 []).length = none)
    (h4 : evenRows (completeBasis R) (completeBasis R).length
        ((completeBasis R).getD 0 []).length = []) :
    solve_row_echelon_form R = SolveResult.err := by
  unfold solve_row_echelon_form
  simp only [if_neg h0, if_pos h1, if_pos h2, h3, h4, List.length_nil]
  simp

/-- Witness for `solve_no_parity_row_crashes` at `[[1,2,5]]`. -/
theorem solve_no_parity_row_crashes_witness :
    evenRows (completeBasis [[1, 2, 5]]) (completeBasis [[1, 2, 5]]).length
        ((completeBasis [[1, 2, 5]]).getD 0 []).length = [] ∧
    solve_row_echelon_form [[1, 2, 5]] = SolveResult.err :=
  ⟨by with_unfolding_all decide,
    solve_no_parity_row_crashes [[1, 2, 5]]
      (by with_unfolding_all decide) (by with_unfolding_all decide)
      (by with_unfolding_all decide) (by with_unfolding_all decide)
      (by with_unfolding_all decide)⟩

/-! ### Generic helper lemmas -/

theorem idxMapFrom_length (f : ℕ → α → α) (s : ℕ) (l : List α) :
    (idxMapFrom f s l).length = l.length := by
  induction l generalizing s with
  | nil => rfl
  | cons a t ih => simp [idxMapFrom, ih]

theorem idxMap_length (f : ℕ → α → α) (l : List α) :
    (idxMap f l).length = l.length := idxMapFrom_length f 0 l

theorem idxMapFrom_getD (f : ℕ → α → α) (s : ℕ) (l : List α) (k : ℕ) (d : α) :
    (idxMapFrom f s l).getD k d =
      if k < l.length then f (s + k) (l.getD k d) else d := by
  induction l generalizing s k with
  | nil => simp [idxMapFrom]
  | cons a t ih =>
    cases k with
    | zero => simp [idxMapFrom]
    | succ k =>
      simp only [idxMapFrom, List.getD_cons_succ, List.length_cons]
      rw [ih (s + 1) k]
      have h2 : s + 1 + k = s + (k + 1) := by omega
      rw [h2]
      simp [Nat.succ_lt_succ_iff]

theorem idxMap_getD (f : ℕ → α → α) (l : List α) (k : ℕ) (d : α) :
    (idxMap f l).getD k d = if k < l.length then f k (l.getD k d) else d := by
  have := idxMapFrom_getD f 0 l k d
  simpa using this

theorem idxMapFrom_fix (f : ℕ → α → α) (a : α) (h : ∀ n, f n a = a) (s len : ℕ) :
    idxMapFrom f s (List.replicate len a) = List.replicate len a := by
  induction len generalizing s with
  | zero => rfl
  | succ n ih => simp [List.replicate, idxMapFrom, h, ih]

theorem getD_replicate_cases (a d : α) (n i : ℕ) :
    (List.replicate n a).getD i d = if i < n then a else d := by
  induction n generalizing i with
  | zero => simp
  | succ n ih =>
    cases i with
    | zero => rw [List.replicate_succ, List.getD_cons_zero]; simp
    | succ i =>
      rw [List.replicate_succ, List.getD_cons_succ, ih]
      simp [Nat.succ_lt_succ_iff]

/-! ### Dedup output is a sublist of its input -/

theorem dedupInner_sublist (i : ℕ) (L : Mat) (j : ℕ) :
    (dedupInner i L j).Sublist L := by
  induction L, j using dedupInner.induct i with
  | case1 L j h heq ih =>
    rw [dedupInner]
    simp only [dif_pos h, if_pos heq]
    exact ih.trans (List.eraseIdx_sublist L j)
  | case2 L j h heq ih =>
    rw [dedupInner]
    simp only [dif_pos h, if_neg heq]
    exact ih
  | case3 L j h =>
    rw [dedupInner]
    simp only [dif_neg h]
    exact List.Sublist.refl L

theorem dedupOuter_sublist (L : Mat) (i : ℕ) :
    (dedupOuter L i).Sublist L := by
  induction L, i using dedupOuter.induct with
  | case1 L i h ih =>
    rw [dedupOuter]
    simp only [dif_pos h]
    exact ih.trans (dedupInner_sublist i L (i + 1))
  | case2 L i h =>
    rw [dedupOuter]
    simp only [dif_neg h]
    exact List.Sublist.refl L

theorem remove_duplicate_sublist (L : Mat) :
    (remove_duplicate_row_echelon_form L).Sublist L := dedupOuter_sublist L 0

/-! ### C9: rank of an all-zero matrix -/

/-- The elimination pipeline maps an all-zero matrix to itself. -/
theorem echelonLoop_replicate_zero (R C : ℕ) :
    echelonLoop (List.replicate R (List.replicate C (0 : ℚ))) =
      List.replicate R (List.replicate C (0 : ℚ)) := by
  set r0 : List ℚ := List.replicate C (0 : ℚ) with hr0
  have hsrc : ∀ (mr : ℕ), ∀ c : ℕ,
      ((List.replicate R r0).getD mr []).getD c 0 = 0 := by
    intro mr c
    rw [getD_replicate_cases]
    split
    · rw [hr0, getD_replicate_cases]
      split <;> rfl
    · rfl
  have hent : ∀ r c, ent (List.replicate R r0) r c = 0 := fun r c => hsrc r c
  have hmix : ∀ (src : List ℚ) (i nC : ℕ), (∀ c, src.getD c 0 = 0) →
      mixRow r0 src i nC = r0 := by
    intro src i nC hs
    unfold mixRow idxMap
    rw [hr0]
    refine idxMapFrom_fix _ _ ?_ 0 C
    intro n
    simp only [hs n]
    split <;> rfl
  have hswap : ∀ i mr nC,
      swapStep (List.replicate R r0) i mr nC = List.replicate R r0 := by
    intro i mr nC
    unfold swapStep idxMap
    refine idxMapFrom_fix _ _ ?_ 0 R
    intro n
    split
    · exact hmix _ i nC (hsrc mr)
    · split
      · exact hmix _ i nC (hsrc i)
      · rfl
  have helim : ∀ i k nC,
      elimRow (List.replicate R r0) i k nC = List.replicate R r0 := by
    intro i k nC
    unfold elimRow
    rw [if_pos (hent i i)]
  have hbelow : ∀ i nR nC,
      elimBelow (List.replicate R r0) i nR nC = List.replicate R r0 := by
    intro i nR nC
    unfold elimBelow
    generalize List.range' (i + 1) (nR - (i + 1)) = ks
    induction ks with
    | nil => rfl
    | cons k ks ih => rw [List.foldl_cons, helim i k _]; exact ih
  have hpivot : ∀ nR nC i,
      pivotStep nR nC (List.replicate R r0) i = List.replicate R r0 := by
    intro nR nC i
    simp only [pivotStep]
    rw [hswap, hbelow]
  unfold echelonLoop
  generalize List.range (min (((List.replicate R r0).getD 0 []).length)
    ((List.replicate R r0).length)) = is
  induction is with
  | nil => rfl
  | cons i is ih => rw [List.foldl_cons, hpivot]; exact ih

/-- C9: the rank of an all-zero `R × C` matrix is `0` for `R, C > 0`. -/
theorem rank_all_zero (R C : ℕ) (hR : 0 < R) (hC : 0 < C) :
    rank (List.replicate R (List.replicate C (0 : ℚ))) = 0 := by
  unfold rank row_echelon_form
  rw [if_neg (by simp; omega)]
  rw [echelonLoop_replicate_zero]
  rw [List.length_eq_zero, List.filter_eq_nil_iff]
  intro l hl
  have hmem : l ∈ List.replicate R (List.replicate C (0 : ℚ)) :=
    (remove_duplicate_sublist _).subset hl
  have hl0 : l = List.replicate C (0 : ℚ) := List.eq_of_mem_replicate hmem
  subst hl0
  have hz : isZeroSetRow (List.replicate C (0 : ℚ)) = true := by
    unfold isZeroSetRow
    rw [Bool.and_eq_true]
    constructor
    · cases C with
      | zero => omega
      | succ n => simp [List.replicate_succ]
    · rw [List.all_eq_true]
      intro x hx
      have := List.eq_of_mem_replicate hx
      simp [this]
  simp [hz]

/-- Witness for `rank_all_zero` at `R = 2`, `C = 3`. -/
theorem rank_all_zero_witness :
    rank (List.replicate 2 (List.replicate 3 (0 : ℚ))) = 0 :=
  rank_all_zero 2 3 (by decide) (by decide)

/-! ### C10: both division sites are guarded -/

/-- Division that signals (with `none`) instead of dividing by zero. -/
def safeDiv (a b : ℚ) : Option ℚ := if b = 0 then none else some (a / b)

/-- `elimRow` with its division routed through `safeDiv`: the multiplier
`c = -L[k][i] / L[i][i]` is computed only in the branch where the pivot is
nonzero. -/
def elimRowD (M : Mat) (i k numCols : ℕ) : Option Mat :=
  if ent M i i = 0 then some M
  else
    match safeDiv (-(ent M k i)) (ent M i i) with
    | none => none
    | some c =>
      some (idxMap (fun r row =>
        if r = k then elimEntryRow (M.getD i []) c i numCols row else row) M)

/-- `elimBelow` threading the checked division. -/
def elimBelowD (M : Mat) (i numRows numCols : ℕ) : Option Mat :=
  (List.range' (i + 1) (numRows - (i + 1))).foldl
    (fun A? k => A?.bind (fun A => elimRowD A i k numCols)) (some M)

/-- `pivotStep` threading the checked division. -/
def pivotStepD (numRows numCols : ℕ) (M : Mat) (i : ℕ) : Option Mat :=
  let mr := (findMax M i numRows).2
  elimBelowD (swapStep M i mr numCols) i numRows numCols

/-- `echelonLoop` threading the checked division. -/
def echelonLoopD (M : Mat) : Option Mat :=
  (List.range (min (M.getD 0 []).length M.length)).foldl
    (fun A? i => A?.bind (fun A => pivotStepD M.length (M.getD 0 []).length A i)) (some M)

/-- `backSub` with the quotient `R[i][num_cols-1] / R[i][q]` routed through
`safeDiv`: it is computed only in the branch where `R[i][q]` is nonzero. -/
def backSubD (numCols : ℕ) : ℕ → Mat × List ℚ → Option (Mat × List ℚ)
  | 0, st => some st
  | n + 1, (R, x) =>
    let q := min n (numCols - 2)
    if ent R n q = 0 then backSubD numCols n (R, x.eraseIdx n)
    else
      match safeDiv (ent R n (numCols - 1)) (ent R n q) with
      | none => none
      | some v => backSubD numCols n (updateRhs numCols n v R, x.set n v)

theorem elimRowD_eq (M : Mat) (i k numCols : ℕ) :
    elimRowD M i k numCols = some (elimRow M i k numCols) := by
  unfold elimRowD elimRow safeDiv
  split
  · rfl
  · rfl

theorem elimBelowD_eq (M : Mat) (i numRows numCols : ℕ) :
    elimBelowD M i numRows numCols = some (elimBelow M i numRows numCols) := by
  unfold elimBelowD elimBelow
  generalize List.range' (i + 1) (numRows - (i + 1)) = ks
  induction ks generalizing M with
  | nil => rfl
  | cons k ks ih =>
    rw [List.foldl_cons, List.foldl_cons, Option.some_bind, elimRowD_eq]
    exact ih (elimRow M i k numCols)

theorem pivotStepD_eq (numRows numCols : ℕ) (M : Mat) (i : ℕ) :
    pivotStepD numRows numCols M i = some (pivotStep numRows numCols M i) := by
  simp only [pivotStepD, pivotStep]
  exact elimBelowD_eq _ i numRows numCols

theorem echelonLoopD_eq (M : Mat) : echelonLoopD M = some (echelonLoop M) := by
  unfold echelonLoopD echelonLoop
  generalize hnR : M.length = nR
  generalize hnC : (M.getD 0 []).length = nC
  generalize List.range (min nC nR) = is
  clear hnR hnC
  induction is generalizing M with
  | nil => rfl
  | cons i is ih =>
    rw [List.foldl_cons, List.foldl_cons, Option.some_bind, pivotStepD_eq]
    exact ih (pivotStep nR nC M i)

theorem backSubD_eq (numCols n : ℕ) (st : Mat × List ℚ) :
    backSubD numCols n st = some (backSub numCols n st) := by
  induction n generalizing st with
  | zero => rfl
  | succ n ih =>
    obtain ⟨R, x⟩ := st
    unfold backSubD backSub safeDiv
    dsimp only
    split
    · exact ih _
    · exact ih _

/-- C10: no division by zero is reachable.  Routing every division of
`row_echelon_form`'s elimination and of the back-substitution loop through
`safeDiv` (which signals division by zero with `none`) always succeeds and
computes the same result: the multiplier `c = -L[k][i]/L[i][i]` is only
computed under the guard `L[i][i] ≠ 0`, and the quotient
`R[i][num_cols-1]/R[i][q]` only under the guard `R[i][q] ≠ 0`. -/
theorem no_division_by_zero_guarded :
    (∀ M : Mat, echelonLoopD M = some (echelonLoop M)) ∧
    (∀ (numCols n : ℕ) (st : Mat × List ℚ),
      backSubD numCols n st = some (backSub numCols n st)) :=
  ⟨echelonLoopD_eq, backSubD_eq⟩

/-! ### Shape lemmas for the elimination steps -/

/-- All rows have length `nC`. -/
def WF (nC : ℕ) (M : Mat) : Prop := ∀ row ∈ M, row.length = nC

theorem getD_row_mem (M : Mat) (r : ℕ) (hr : r < M.length) : M.getD r [] ∈ M := by
  rw [List.getD_eq_getElem?_getD, List.getElem?_eq_getElem hr]
  exact List.getElem_mem hr

theorem WF.row_length {nC : ℕ} {M : Mat} (hW : WF nC M) {r : ℕ} (hr : r < M.length) :
    (M.getD r []).length = nC := hW _ (getD_row_mem M r hr)

theorem getD_eq_getElem_of_lt (l : List α) (d : α) {c : ℕ} (hc : c < l.length) :
    l.getD c d = l[c] := by
  rw [List.getD_eq_getElem?_getD, List.getElem?_eq_getElem hc]
  rfl

/-- Lists of equal length with equal `getD` entries are equal. -/
theorem list_eq_of_getD {l1 l2 : List ℚ} (hlen : l1.length = l2.length)
    (h : ∀ c, c < l1.length → l1.getD c 0 = l2.getD c 0) : l1 = l2 := by
  refine List.ext_getElem hlen ?_
  intro c h1 h2
  have := h c h1
  rwa [getD_eq_getElem_of_lt l1 0 h1, getD_eq_getElem_of_lt l2 0 h2] at this

/-- Matrices of equal length with equal rows are equal. -/
theorem mat_eq_of_rows {M1 M2 : Mat} (hlen : M1.length = M2.length)
    (h : ∀ r, r < M1.length → M1.getD r [] = M2.getD r []) : M1 = M2 := by
  refine List.ext_getElem hlen ?_
  intro r h1 h2
  have := h r h1
  rwa [getD_eq_getElem_of_lt M1 [] h1, getD_eq_getElem_of_lt M2 [] h2] at this

theorem mixRow_length (row src : List ℚ) (i nC : ℕ) :
    (mixRow row src i nC).length = row.length := idxMap_length _ _

theorem mixRow_getD (row src : List ℚ) (i nC c : ℕ) :
    (mixRow row src i nC).getD c 0 =
      if c < row.length then
        (if i ≤ c ∧ c < nC then src.getD c 0 else row.getD c 0)
      else 0 := idxMap_getD _ _ _ _

theorem swapStep_length (M : Mat) (i mr nC : ℕ) :
    (swapStep M i mr nC).length = M.length := idxMap_length _ _

theorem swapStep_row (M : Mat) (i mr nC r : ℕ) (hr : r < M.length) :
    (swapStep M i mr nC).getD r [] =
      if r = i then mixRow (M.getD i []) (M.getD mr []) i nC
      else if r = mr then mixRow (M.getD mr []) (M.getD i []) i nC
      else M.getD r [] := by
  unfold swapStep
  rw [idxMap_getD, if_pos hr]
  split
  · rename_i h
    subst h
    rfl
  · split
    · rename_i h1 h2
      subst h2
      rfl
    · rfl

theorem swapStep_WF {nC : ℕ} {M : Mat} (hW : WF nC M) (i mr : ℕ) :
    WF nC (swapStep M i mr nC) := by
  intro row hrow
  obtain ⟨r, hr, hval⟩ := List.getElem_of_mem hrow
  rw [swapStep_length] at hr
  have hrow' := swapStep_row M i mr nC r hr
  rw [getD_eq_getElem_of_lt _ [] (by rwa [swapStep_length])] at hrow'
  rw [← hval, hrow']
  split
  · rename_i h
    rw [mixRow_length]
    exact hW.row_length (h ▸ hr)
  · split
    · rename_i h1 h2
      rw [mixRow_length]
      exact hW.row_length (h2 ▸ hr)
    · exact hW.row_length hr

theorem elimEntryRow_length (src : List ℚ) (c : ℚ) (i nC : ℕ) (row : List ℚ) :
    (elimEntryRow src c i nC row).length = row.length := idxMap_length _ _

theorem elimEntryRow_getD (src : List ℚ) (c : ℚ) (i nC : ℕ) (row : List ℚ) (j : ℕ) :
    (elimEntryRow src c i nC row).getD j 0 =
      if j < row.length then
        (if i ≤ j ∧ j < nC then (if j = i then 0 else row.getD j 0 + c * src.getD j 0) else row.getD j 0)
      else 0 := idxMap_getD _ _ _ _

theorem elimRow_zero_pivot {M : Mat} {i : ℕ} (h : ent M i i = 0) (k nC : ℕ) :
    elimRow M i k nC = M := by
  unfold elimRow
  rw [if_pos h]

theorem elimRow_row {M : Mat} {i : ℕ} (h : ¬ent M i i = 0) (k nC r : ℕ)
    (hr : r < M.length) :
    (elimRow M i k nC).getD r [] =
      if r = k then
        elimEntryRow (M.getD i []) (-(ent M k i) / ent M i i) i nC (M.getD r [])
      else M.getD r [] := by
  unfold elimRow
  rw [if_neg h]
  exact idxMap_getD _ _ _ _ |>.trans (if_pos hr)

theorem elimRow_length (M : Mat) (i k nC : ℕ) :
    (elimRow M i k nC).length = M.length := by
  unfold elimRow
  split
  · rfl
  · exact idxMap_length _ _

theorem elimRow_WF {nC : ℕ} {M : Mat} (hW : WF nC M) (i k : ℕ) :
    WF nC (elimRow M i k nC) := by
  by_cases h : ent M i i = 0
  · rw [elimRow_zero_pivot h]; exact hW
  · intro row hrow
    obtain ⟨r, hr, hval⟩ := List.getElem_of_mem hrow
    rw [elimRow_length] at hr
    have := elimRow_row h k nC r hr
    rw [getD_eq_getElem_of_lt _ [] (by rwa [elimRow_length])] at this
    rw [← hval, this]
    split
    · rw [elimEntryRow_length]; exact hW.row_length hr
    · exact hW.row_length hr

/-! ### Pivot search specification -/

theorem findMax_fold (M : Mat) (i : ℕ) (ks : List ℕ) (st0 : ℚ × ℕ)
    (h0 : st0.1 = |ent M st0.2 i|) :
    (ks.foldl (fun st k => if |ent M k i| > st.1 then (|ent M k i|, k) else st) st0).1 =
      |ent M (ks.foldl (fun st k => if |ent M k i| > st.1 then (|ent M k i|, k) else st) st0).2 i| ∧
    ((ks.foldl (fun st k => if |ent M k i| > st.1 then (|ent M k i|, k) else st) st0).2 = st0.2 ∨
      (ks.foldl (fun st k => if |ent M k i| > st.1 then (|ent M k i|, k) else st) st0).2 ∈ ks) ∧
    st0.1 ≤ (ks.foldl (fun st k => if |ent M k i| > st.1 then (|ent M k i|, k) else st) st0).1 ∧
    ∀ k ∈ ks, |ent M k i| ≤
      (ks.foldl (fun st k => if |ent M k i| > st.1 then (|ent M k i|, k) else st) st0).1 := by
  induction ks generalizing st0 with
  | nil =>
    refine ⟨h0, Or.inl rfl, le_refl _, ?_⟩
    intro k hk
    exact absurd hk (List.not_mem_nil k)
  | cons k ks ih =>
    simp only [List.foldl_cons]
    set st1 := if |ent M k i| > st0.1 then (|ent M k i|, k) else st0 with hst1
    have h1 : st1.1 = |ent M st1.2 i| := by
      rw [hst1]
      split
      · rfl
      · exact h0
    have h01 : st0.1 ≤ st1.1 := by
      rw [hst1]
      split
      · rename_i h
        exact le_of_lt h
      · exact le_refl _
    have hk1 : |ent M k i| ≤ st1.1 := by
      rw [hst1]
      split
      · exact le_refl _
      · rename_i h
        exact le_of_not_lt h
    have hmem : st1.2 = st0.2 ∨ st1.2 = k := by
      rw [hst1]
      split
      · exact Or.inr rfl
      · exact Or.inl rfl
    obtain ⟨g1, g2, g3, g4⟩ := ih st1 h1
    refine ⟨g1, ?_, le_trans h01 g3, ?_⟩
    · rcases g2 with h | h
      · rw [h]
        rcases hmem with h' | h'
        · exact Or.inl h'
        · exact Or.inr (h' ▸ List.mem_cons_self k ks)
      · exact Or.inr (List.mem_cons_of_mem k h)
    · intro k' hk'
      rcases List.mem_cons.mp hk' with h | h
      · exact h ▸ le_trans hk1 g3
      · exact g4 k' h

theorem findMax_spec (M : Mat) (i nR : ℕ) (hi : i < nR) :
    (findMax M i nR).1 = |ent M (findMax M i nR).2 i| ∧
    i ≤ (findMax M i nR).2 ∧ (findMax M i nR).2 < nR ∧
    ∀ k, i ≤ k → k < nR → |ent M k i| ≤ (findMax M i nR).1 := by
  have h := findMax_fold M i (List.range' (i + 1) (nR - (i + 1))) (|ent M i i|, i) rfl
  obtain ⟨g1, g2, g3, g4⟩ := h
  have hmem : ∀ k, k ∈ List.range' (i + 1) (nR - (i + 1)) ↔ i + 1 ≤ k ∧ k < nR := by
    intro k
    rw [List.mem_range'_1]
    omega
  refine ⟨g1, ?_, ?_, ?_⟩
  · rcases g2 with h | h
    · rw [findMax, h]
    · rw [findMax]
      have := (hmem _).mp h
      omega
  · rcases g2 with h | h
    · rw [findMax, h]
      exact hi
    · rw [findMax]
      exact ((hmem _).mp h).2
  · intro k hik hk
    rcases Nat.eq_or_lt_of_le hik with h | h
    · subst h
      exact g3
    · exact g4 k ((hmem k).mpr (by omega))

/-! ### The elimination fold as a per-row map -/

theorem elimRow_row_untouched (M : Mat) (i k nC r : ℕ) (hrk : r ≠ k) :
    (elimRow M i k nC).getD r [] = M.getD r [] := by
  unfold elimRow
  split
  · rfl
  · by_cases hr : r < M.length
    · rw [idxMap_getD, if_pos hr, if_neg hrk]
    · rw [List.getD_eq_getElem?_getD, List.getElem?_eq_none (by rw [idxMap_length]; omega),
        List.getD_eq_getElem?_getD, List.getElem?_eq_none (by omega)]

theorem elimFold (nC nR i : ℕ) (M1 : Mat) (hpiv : ent M1 i i ≠ 0) :
    ∀ (ks : List ℕ) (A : Mat), (∀ k ∈ ks, i < k ∧ k < nR) → ks.Nodup →
    A.length = nR → A.getD i [] = M1.getD i [] →
    (∀ k ∈ ks, A.getD k [] = M1.getD k []) →
    ∀ r, (ks.foldl (fun A k => elimRow A i k nC) A).getD r [] =
      if r ∈ ks then
        elimEntryRow (M1.getD i []) (-(ent M1 r i) / ent M1 i i) i nC (M1.getD r [])
      else A.getD r [] := by
  intro ks
  induction ks with
  | nil =>
    intro A _ _ _ _ _ r
    simp
  | cons k ks ih =>
    intro A hks hnd hAlen hrowi hunproc r
    have hik : i < k := (hks k (List.mem_cons_self k ks)).1
    have hkR : k < nR := (hks k (List.mem_cons_self k ks)).2
    have hApiv : ent A i i ≠ 0 := by
      unfold ent
      rw [hrowi]
      exact hpiv
    have hkA : k < A.length := by omega
    have hA1row : (elimRow A i k nC).getD k [] =
        elimEntryRow (M1.getD i []) (-(ent M1 k i) / ent M1 i i) i nC (M1.getD k []) := by
      rw [elimRow_row hApiv k nC k hkA, if_pos rfl]
      have e1 : ent A k i = ent M1 k i := by
        unfold ent
        rw [hunproc k (List.mem_cons_self k ks)]
      have e2 : ent A i i = ent M1 i i := by
        unfold ent
        rw [hrowi]
      rw [e1, e2, hrowi, hunproc k (List.mem_cons_self k ks)]
    rw [List.foldl_cons]
    have hnd' : ks.Nodup := (List.nodup_cons.mp hnd).2
    have hknot : k ∉ ks := (List.nodup_cons.mp hnd).1
    have ih' := ih (elimRow A i k nC)
      (fun k' hk' => hks k' (List.mem_cons_of_mem k hk'))
      hnd'
      (by rw [elimRow_length]; exact hAlen)
      (by rw [elimRow_row_untouched A i k nC i (by omega)]; exact hrowi)
      (fun k' hk' => by
        rw [elimRow_row_untouched A i k nC k' (fun h => hknot (h ▸ hk'))]
        exact hunproc k' (List.mem_cons_of_mem k hk'))
      r
    rw [ih']
    by_cases hr : r ∈ ks
    · rw [if_pos hr, if_pos (List.mem_cons_of_mem k hr)]
    · rw [if_neg hr]
      by_cases hrk : r = k
      · subst hrk
        rw [if_pos (List.mem_cons_self r ks)]
        exact hA1row
      · rw [if_neg (by
          intro h
          rcases List.mem_cons.mp h with h' | h'
          · exact hrk h'
          · exact hr h')]
        exact elimRow_row_untouched A i k nC r hrk

theorem elimBelow_length (M : Mat) (i nR nC : ℕ) :
    (elimBelow M i nR nC).length = M.length := by
  unfold elimBelow
  generalize List.range' (i + 1) (nR - (i + 1)) = ks
  induction ks generalizing M with
  | nil => rfl
  | cons k ks ih =>
    rw [List.foldl_cons]
    rw [ih (elimRow M i k nC), elimRow_length]

theorem elimBelow_zero_pivot {M : Mat} {i : ℕ} (h : ent M i i = 0) (nR nC : ℕ) :
    elimBelow M i nR nC = M := by
  unfold elimBelow
  generalize List.range' (i + 1) (nR - (i + 1)) = ks
  induction ks with
  | nil => rfl
  | cons k ks ih =>
    rw [List.foldl_cons, elimRow_zero_pivot h, ih]

/-! ### Entry-level description of the swap step -/

theorem ent_swapStep {nC : ℕ} {M : Mat} (hW : WF nC M) {r c : ℕ}
    (hr : r < M.length) (hc : c < nC) (i mr : ℕ) :
    ent (swapStep M i mr nC) r c =
      if r = i then (if i ≤ c then ent M mr c else ent M i c)
      else if r = mr then (if i ≤ c then ent M i c else ent M mr c)
      else ent M r c := by
  unfold ent
  rw [swapStep_row M i mr nC r hr]
  split
  · rename_i h
    rw [mixRow_getD, hW.row_length (h ▸ hr), if_pos hc]
    by_cases hic : i ≤ c
    · rw [if_pos ⟨hic, hc⟩, if_pos hic]
    · rw [if_neg (fun hand => hic hand.1), if_neg hic]
  · split
    · rename_i h1 h2
      rw [mixRow_getD, hW.row_length (h2 ▸ hr), if_pos hc]
      by_cases hic : i ≤ c
      · rw [if_pos ⟨hic, hc⟩, if_pos hic]
      · rw [if_neg (fun hand => hic hand.1), if_neg hic]
    · rfl

/-! ### The elimination loop, step by step -/

/-- State of the matrix after the first `i` pivot iterations. -/
def stepsUpTo (nR nC : ℕ) (L : Mat) (i : ℕ) : Mat :=
  (List.range i).foldl (pivotStep nR nC) L

theorem stepsUpTo_succ (nR nC : ℕ) (L : Mat) (i : ℕ) :
    stepsUpTo nR nC L (i + 1) = pivotStep nR nC (stepsUpTo nR nC L i) i := by
  unfold stepsUpTo
  rw [List.range_succ, List.foldl_append, List.foldl_cons, List.foldl_nil]

theorem echelonLoop_eq_stepsUpTo (L : Mat) :
    echelonLoop L =
      stepsUpTo L.length (L.getD 0 []).length L (min (L.getD 0 []).length L.length) := rfl

/-- Invariant of the elimination loop: after `i` pivot iterations the matrix
keeps its shape and has zeros strictly below the diagonal in the first `i`
columns — unconditionally, zero pivots included. -/
theorem echelon_invariant (nC : ℕ) (L : Mat) (hW : WF nC L) :
    ∀ i, i ≤ min nC L.length →
      (stepsUpTo L.length nC L i).length = L.length ∧
      WF nC (stepsUpTo L.length nC L i) ∧
      (∀ r c, c < i → c < r → r < L.length → ent (stepsUpTo L.length nC L i) r c = 0) := by
  intro i
  induction i with
  | zero =>
    intro _
    exact ⟨rfl, hW, by omega⟩
  | succ i ihp =>
    intro hi
    obtain ⟨hlen, hWM, hpre⟩ := ihp (by omega)
    set nR := L.length with hnR
    set M := stepsUpTo nR nC L i with hM
    have hiC : i < nC := by omega
    have hiR : i < nR := by omega
    obtain ⟨hfm1, hfm2, hfm3, hfm4⟩ := findMax_spec M i nR hiR
    set mr := (findMax M i nR).2 with hmr
    set M1 := swapStep M i mr nC with hM1
    have hM1len : M1.length = nR := by rw [hM1, swapStep_length, hlen]
    have hM1WF : WF nC M1 := swapStep_WF hWM i mr
    have hpre1 : ∀ r c, c < i → c < r → r < nR → ent M1 r c = 0 := by
      intro r c hc hcr hrR
      rw [hM1, ent_swapStep hWM (by omega) (by omega) i mr]
      split
      · rename_i h
        rw [if_neg (by omega)]
        exact hpre i c hc (by omega) (by omega)
      · split
        · rename_i h1 h2
          rw [if_neg (by omega)]
          exact hpre mr c hc (by omega) (by omega)
        · exact hpre r c hc hcr hrR
    have hcolbound : ∀ r, i < r → r < nR → |ent M1 r i| ≤ (findMax M i nR).1 := by
      intro r hir hrR
      rw [hM1, ent_swapStep hWM (by omega) hiC i mr]
      rw [if_neg (by omega)]
      split
      · rw [if_pos (le_refl i)]
        exact hfm4 i (le_refl i) hiR
      · exact hfm4 r (by omega) hrR
    have hpivM1 : ent M1 i i = ent M mr i := by
      rw [hM1, ent_swapStep hWM (by omega) hiC i mr, if_pos rfl, if_pos (le_refl i)]
    have hstep : stepsUpTo nR nC L (i + 1) = elimBelow M1 i nR nC := by
      rw [stepsUpTo_succ]
      rfl
    by_cases hz : ent M1 i i = 0
    · have hid : elimBelow M1 i nR nC = M1 := elimBelow_zero_pivot hz nR nC
      rw [hstep, hid]
      refine ⟨hM1len, hM1WF, ?_⟩
      intro r c hc hcr hrR
      by_cases hci : c < i
      · exact hpre1 r c hci hcr hrR
      · have hce : c = i := by omega
        rw [hce]
        have h1 : |ent M1 r i| ≤ (findMax M i nR).1 := hcolbound r (by omega) hrR
        have h2 : (findMax M i nR).1 = 0 := by rw [hfm1, ← hpivM1, hz, abs_zero]
        rw [h2] at h1
        exact abs_eq_zero.mp (le_antisymm h1 (abs_nonneg _))
    · have hchar : ∀ r, (elimBelow M1 i nR nC).getD r [] =
          if r ∈ List.range' (i + 1) (nR - (i + 1)) then
            elimEntryRow (M1.getD i []) (-(ent M1 r i) / ent M1 i i) i nC (M1.getD r [])
          else M1.getD r [] :=
        elimFold nC nR i M1 hz (List.range' (i + 1) (nR - (i + 1))) M1
          (fun k hk => by
            rw [List.mem_range'_1] at hk
            omega)
          (List.nodup_range' _ _)
          hM1len rfl (fun k _ => rfl)
      have hmem : ∀ r, r ∈ List.range' (i + 1) (nR - (i + 1)) ↔ i < r ∧ r < nR := by
        intro r
        rw [List.mem_range'_1]
        omega
      rw [hstep]
      have hlen2 : (elimBelow M1 i nR nC).length = nR := by
        rw [elimBelow_length, hM1len]
      refine ⟨hlen2, ?_, ?_⟩
      · intro row hrow
        obtain ⟨r, hr, hval⟩ := List.getElem_of_mem hrow
        rw [hlen2] at hr
        have := hchar r
        rw [getD_eq_getElem_of_lt _ [] (by rwa [hlen2])] at this
        rw [← hval, this]
        split
        · rw [elimEntryRow_length]
          exact hM1WF.row_length (by omega)
        · exact hM1WF.row_length (by omega)
      · intro r c hc hcr hrR
        have hrc := hchar r
        by_cases hrin : r ∈ List.range' (i + 1) (nR - (i + 1))
        · have hir : i < r := ((hmem r).mp hrin).1
          unfold ent
          rw [hrc, if_pos hrin, elimEntryRow_getD,
            hM1WF.row_length (by omega : r < M1.length), if_pos (by omega)]
          by_cases hci : c < i
          · rw [if_neg (by omega)]
            exact hpre1 r c hci hcr hrR
          · have hce : c = i := by omega
            subst hce
            rw [if_pos ⟨le_refl _, hiC⟩, if_pos rfl]
        · have hri : r ≤ i := by
            rcases Nat.lt_or_ge r (i + 1) with h | h
            · omega
            · exact absurd ((hmem r).mpr ⟨by omega, hrR⟩) hrin
          have hci : c < i := by omega
          unfold ent
          rw [hrc, if_neg hrin]
          exact hpre1 r c hci hcr hrR

/-! ### C4: the partial swap acts as a full row swap -/

theorem getD_set (l : List α) (i r : ℕ) (x d : α) :
    (l.set i x).getD r d = if r = i ∧ i < l.length then x else l.getD r d := by
  by_cases h1 : r = i
  · subst h1
    by_cases h2 : r < l.length
    · rw [if_pos ⟨rfl, h2⟩, List.getD_eq_getElem?_getD, List.getElem?_set_self h2]
      rfl
    · rw [if_neg (fun h => h2 h.2), List.set_eq_of_length_le (by omega)]
  · rw [if_neg (fun h => h1 h.1), List.getD_eq_getElem?_getD,
      List.getElem?_set_ne (fun h => h1 h.symm), ← List.getD_eq_getElem?_getD]

/-- Modelled from the spec: "Swap row `i` and `max_row` in place (full row
swap across all columns)" — the in-place three-assignment swap of the two
entire rows. -/
def swapRowsFullSpec (M : Mat) (i mr : ℕ) : Mat :=
  (M.set i (M.getD mr [])).set mr (M.getD i [])

theorem swapStep_eq_full (nC : ℕ) (M : Mat) (hW : WF nC M) (i mr : ℕ)
    (hi : i < M.length) (hmr : mr < M.length)
    (hzi : ∀ c, c < i → ent M i c = 0) (hzmr : ∀ c, c < i → ent M mr c = 0) :
    swapStep M i mr nC = swapRowsFullSpec M i mr := by
  apply mat_eq_of_rows
  · rw [swapStep_length]
    unfold swapRowsFullSpec
    rw [List.length_set, List.length_set]
  · intro r hr
    rw [swapStep_length] at hr
    rw [swapStep_row M i mr nC r hr]
    unfold swapRowsFullSpec
    rw [getD_set, getD_set, List.length_set]
    by_cases h1 : r = i
    · subst h1
      rw [if_pos rfl]
      by_cases h2 : r = mr
      · subst h2
        rw [if_pos ⟨rfl, hmr⟩]
        apply list_eq_of_getD (by rw [mixRow_length])
        intro c hc
        rw [mixRow_length] at hc
        rw [mixRow_getD, if_pos hc]
        split
        · rfl
        · rfl
      · rw [if_neg (fun h => h2 h.1), if_pos ⟨rfl, hi⟩]
        apply list_eq_of_getD
        · rw [mixRow_length, hW.row_length hi, hW.row_length hmr]
        · intro c hc
          rw [mixRow_length] at hc
          rw [mixRow_getD, if_pos hc]
          rw [hW.row_length hi] at hc
          by_cases hic : r ≤ c
          · rw [if_pos ⟨hic, hc⟩]
          · have hci : c < r := by omega
            rw [if_neg (fun h => hic h.1)]
            have e1 : (M.getD r []).getD c 0 = 0 := hzi c hci
            have e2 : (M.getD mr []).getD c 0 = 0 := hzmr c hci
            rw [e1, e2]
    · rw [if_neg h1]
      by_cases h2 : r = mr
      · subst h2
        rw [if_pos rfl, if_pos ⟨rfl, hmr⟩]
        apply list_eq_of_getD
        · rw [mixRow_length, hW.row_length hi, hW.row_length hmr]
        · intro c hc
          rw [mixRow_length] at hc
          rw [mixRow_getD, if_pos hc]
          rw [hW.row_length hmr] at hc
          by_cases hic : i ≤ c
          · rw [if_pos ⟨hic, hc⟩]
          · have hci : c < i := by omega
            rw [if_neg (fun h => hic h.1)]
            have e1 : (M.getD r []).getD c 0 = 0 := hzmr c hci
            have e2 : (M.getD i []).getD c 0 = 0 := hzi c hci
            rw [e1, e2]
      · rw [if_neg h2, if_neg (fun h => h2 h.1), if_neg (fun h => h1 h.1)]

/-- C4: at every pivot step `i` of the elimination loop, the source's
partial swap (which exchanges only columns `i .. num_cols - 1` of rows `i`
and `max_row`) produces exactly the matrix of a full row swap
(`swapRowsFullSpec`, modelled from the spec's words): by the loop invariant
`echelon_invariant`, both rows are zero in every column before `i`, so the
entries the partial swap leaves in place already coincide. -/
theorem swap_step_is_full_row_swap (nC : ℕ) (L : Mat) (hW : WF nC L) (i : ℕ)
    (hi : i < min nC L.length) :
    swapStep (stepsUpTo L.length nC L i) i
        (findMax (stepsUpTo L.length nC L i) i L.length).2 nC =
      swapRowsFullSpec (stepsUpTo L.length nC L i) i
        (findMax (stepsUpTo L.length nC L i) i L.length).2 := by
  obtain ⟨hlen, hWM, hpre⟩ := echelon_invariant nC L hW i (by omega)
  obtain ⟨_, hfm2, hfm3, _⟩ :=
    findMax_spec (stepsUpTo L.length nC L i) i L.length (by omega)
  apply swapStep_eq_full nC _ hWM
  · omega
  · omega
  · intro c hc
    exact hpre i c hc hc (by omega)
  · intro c hc
    exact hpre _ c hc (by omega) (by omega)

/-- Witness for `swap_step_is_full_row_swap`: at pivot step `1` of
`[[4,8,2],[2,4,1],[1,1,1]]` the selected `max_row` is `2 ≠ 1`, and the
partial swap still equals the full row swap. -/
theorem swap_step_is_full_row_swap_witness :
    (findMax (stepsUpTo 3 3 [[4, 8, 2], [2, 4, 1], [1, 1, 1]] 1) 1 3).2 = 2 ∧
    swapStep (stepsUpTo 3 3 [[4, 8, 2], [2, 4, 1], [1, 1, 1]] 1) 1
        (findMax (stepsUpTo 3 3 [[4, 8, 2], [2, 4, 1], [1, 1, 1]] 1) 1 3).2 3 =
      swapRowsFullSpec (stepsUpTo 3 3 [[4, 8, 2], [2, 4, 1], [1, 1, 1]] 1) 1
        (findMax (stepsUpTo 3 3 [[4, 8, 2], [2, 4, 1], [1, 1, 1]] 1) 1 3).2 :=
  ⟨by with_unfolding_all decide,
    swap_step_is_full_row_swap 3 [[4, 8, 2], [2, 4, 1], [1, 1, 1]]
      (by unfold WF; decide) 1 (by decide)⟩

/-! ### Linear-system view: dot products of augmented rows -/

/-- Dot product of the first `m` entries of a row with the vector `x`. -/
def rowDotAll (row : List ℚ) (x : ℕ → ℚ) (m : ℕ) : ℚ :=
  ∑ j ∈ Finset.range m, row.getD j 0 * x j

/-- `x` annihilates every (augmented) row of `M`, over the first `m`
columns.  With `x` extended by `-1` in the right-hand-side column this says
`x` solves the system; with `0` there it says `x` is in the kernel of the
coefficient matrix. -/
def AllDotZero (M : Mat) (m : ℕ) (x : ℕ → ℚ) : Prop :=
  ∀ r, r < M.length → rowDotAll (M.getD r []) x m = 0

theorem swapRowsFullSpec_length (M : Mat) (i mr : ℕ) :
    (swapRowsFullSpec M i mr).length = M.length := by
  unfold swapRowsFullSpec
  rw [List.length_set, List.length_set]

theorem swapRowsFullSpec_row (M : Mat) (i mr : ℕ) (hi : i < M.length)
    (hmr : mr < M.length) (r : ℕ) :
    (swapRowsFullSpec M i mr).getD r [] =
      if r = mr then M.getD i [] else if r = i then M.getD mr [] else M.getD r [] := by
  unfold swapRowsFullSpec
  rw [getD_set, getD_set, List.length_set]
  by_cases h1 : r = mr
  · rw [if_pos ⟨h1, hmr⟩, if_pos h1]
  · rw [if_neg (fun h => h1 h.1), if_neg h1]
    by_cases h2 : r = i
    · rw [if_pos ⟨h2, hi⟩, if_pos h2]
    · rw [if_neg (fun h => h2 h.1), if_neg h2]

/-- A full row swap permutes the rows, so it preserves the annihilation
property. -/
theorem AllDotZero_swapFull (M : Mat) (i mr : ℕ) (hi : i < M.length)
    (hmr : mr < M.length) (m : ℕ) (x : ℕ → ℚ) :
    AllDotZero (swapRowsFullSpec M i mr) m x ↔ AllDotZero M m x := by
  constructor
  · intro H r hr
    by_cases h1 : r = i
    · have := H mr (by rwa [swapRowsFullSpec_length])
      rwa [swapRowsFullSpec_row M i mr hi hmr mr, if_pos rfl, ← h1] at this
    · by_cases h2 : r = mr
      · have := H i (by rwa [swapRowsFullSpec_length])
        by_cases h3 : (i : ℕ) = mr
        · rwa [swapRowsFullSpec_row M i mr hi hmr i, if_pos h3, h3, ← h2] at this
        · rwa [swapRowsFullSpec_row M i mr hi hmr i, if_neg h3, if_pos rfl, ← h2] at this
      · have := H r (by rwa [swapRowsFullSpec_length])
        rwa [swapRowsFullSpec_row M i mr hi hmr r, if_neg h2, if_neg h1] at this
  · intro H r hr
    rw [swapRowsFullSpec_length] at hr
    rw [swapRowsFullSpec_row M i mr hi hmr r]
    by_cases h1 : r = mr
    · rw [if_pos h1]
      exact H i hi
    · rw [if_neg h1]
      by_cases h2 : r = i
      · rw [if_pos h2]
        exact H mr hmr
      · rw [if_neg h2]
        exact H r hr

/-- Dot product of the eliminated row `k`: adding `c = -L[k][i]/L[i][i]`
times row `i` (with the prefix columns of both rows zero and the entry at
column `i` forced to an exact `0`) changes the dot product by exactly
`c` times the dot product of row `i`. -/
theorem elim_dot (nC : ℕ) (M : Mat) (i k : ℕ) (hW : WF nC M)
    (hk : k < M.length) (hi : i < M.length) (hpiv : ent M i i ≠ 0)
    (hzi : ∀ c, c < i → ent M i c = 0) (hzk : ∀ c, c < i → ent M k c = 0)
    (x : ℕ → ℚ) :
    rowDotAll ((elimRow M i k nC).getD k []) x nC =
      rowDotAll (M.getD k []) x nC +
        (-(ent M k i) / ent M i i) * rowDotAll (M.getD i []) x nC := by
  set c0 : ℚ := -(ent M k i) / ent M i i with hc0
  rw [elimRow_row hpiv k nC k hk, if_pos rfl]
  unfold rowDotAll
  rw [Finset.mul_sum, ← Finset.sum_add_distrib]
  refine Finset.sum_congr rfl ?_
  intro j hj
  rw [Finset.mem_range] at hj
  rw [elimEntryRow_getD, hW.row_length hk, if_pos ?hlt]
  case hlt =>
    by_cases hjn : j < nC
    · exact hjn
    · exact absurd hj hjn
  by_cases hij : i ≤ j
  · rw [if_pos ⟨hij, hj⟩]
    by_cases hji : j = i
    · subst hji
      rw [if_pos rfl]
      have : (M.getD k []).getD j 0 * x j + c0 * ((M.getD j []).getD j 0 * x j) =
          ((M.getD k []).getD j 0 + c0 * (M.getD j []).getD j 0) * x j := by ring
      rw [this]
      have hz : (M.getD k []).getD j 0 + c0 * (M.getD j []).getD j 0 = 0 := by
        have e1 : (M.getD k []).getD j 0 = ent M k j := rfl
        have e2 : (M.getD j []).getD j 0 = ent M j j := rfl
        rw [e1, e2, hc0]
        field_simp
      rw [hz]
    · rw [if_neg hji]
      ring
  · rw [if_neg (fun h => hij h.1)]
    have : (M.getD i []).getD j 0 = 0 := hzi j (by omega)
    rw [this]
    ring

/-- A single guarded elimination step preserves the annihilation property
(in both directions: the row operation is invertible). -/
theorem AllDotZero_elimRow (nC : ℕ) (M : Mat) (i k : ℕ) (hW : WF nC M)
    (hk : k < M.length) (hi : i < M.length) (hik : i ≠ k)
    (hzi : ∀ c, c < i → ent M i c = 0) (hzk : ∀ c, c < i → ent M k c = 0)
    (x : ℕ → ℚ) :
    AllDotZero (elimRow M i k nC) nC x ↔ AllDotZero M nC x := by
  by_cases hpiv : ent M i i = 0
  · rw [elimRow_zero_pivot hpiv]
  · constructor
    · intro H r hr
      by_cases hrk : r = k
      · have h1 := H k (by rw [elimRow_length]; exact hk)
        have h2 := H i (by rw [elimRow_length]; exact hi)
        rw [elimRow_row_untouched M i k nC i hik] at h2
        rw [elim_dot nC M i k hW hk hi hpiv hzi hzk x, h2] at h1
        rw [hrk]
        simpa using h1
      · have := H r (by rwa [elimRow_length])
        rwa [elimRow_row_untouched M i k nC r hrk] at this
    · intro H r hr
      rw [elimRow_length] at hr
      by_cases hrk : r = k
      · rw [hrk, elim_dot nC M i k hW hk hi hpiv hzi hzk x, H k hk, H i hi]
        ring
      · rw [elimRow_row_untouched M i k nC r hrk]
        exact H r hr

/-- The whole elimination fold below a pivot preserves the annihilation
property. -/
theorem AllDotZero_elimFold (nC nR i : ℕ) (M1 : Mat)
    (hzi1 : ∀ c, c < i → ent M1 i c = 0)
    (hzall : ∀ r c, c < i → i < r → r < nR → ent M1 r c = 0)
    (x : ℕ → ℚ) :
    ∀ (ks : List ℕ) (A : Mat), (∀ k ∈ ks, i < k ∧ k < nR) → ks.Nodup →
      A.length = nR → WF nC A → i < nR →
      A.getD i [] = M1.getD i [] → (∀ k ∈ ks, A.getD k [] = M1.getD k []) →
      (AllDotZero (ks.foldl (fun A k => elimRow A i k nC) A) nC x ↔ AllDotZero A nC x) := by
  intro ks
  induction ks with
  | nil =>
    intro A _ _ _ _ _ _ _
    exact Iff.rfl
  | cons k ks ih =>
    intro A hks hnd hAlen hWA hiR hrowi hunproc
    have hik : i < k := (hks k (List.mem_cons_self k ks)).1
    have hkR : k < nR := (hks k (List.mem_cons_self k ks)).2
    have hstep : AllDotZero (elimRow A i k nC) nC x ↔ AllDotZero A nC x :=
      AllDotZero_elimRow nC A i k hWA (by omega) (by omega) (by omega)
        (fun c hc => by
          show (A.getD i []).getD c 0 = 0
          rw [hrowi]
          exact hzi1 c hc)
        (fun c hc => by
          show (A.getD k []).getD c 0 = 0
          rw [hunproc k (List.mem_cons_self k ks)]
          exact hzall k c hc hik hkR)
        x
    have hknot : k ∉ ks := (List.nodup_cons.mp hnd).1
    have ihstep := ih (elimRow A i k nC)
      (fun k' hk' => hks k' (List.mem_cons_of_mem k hk'))
      (List.nodup_cons.mp hnd).2
      (by rw [elimRow_length]; exact hAlen)
      (elimRow_WF hWA i k)
      hiR
      (by rw [elimRow_row_untouched A i k nC i (by omega)]; exact hrowi)
      (fun k' hk' => by
        rw [elimRow_row_untouched A i k nC k' (fun h => hknot (h ▸ hk'))]
        exact hunproc k' (List.mem_cons_of_mem k hk'))
    rw [List.foldl_cons]
    exact ihstep.trans hstep

/-- The full pivot loop preserves the annihilation property: after any
number of pivot iterations, a vector annihilates all (augmented) rows of
the current matrix iff it annihilates all rows of the input. -/
theorem AllDotZero_stepsUpTo (nC : ℕ) (L : Mat) (hW : WF nC L) (x : ℕ → ℚ) :
    ∀ i, i ≤ min nC L.length →
      (AllDotZero (stepsUpTo L.length nC L i) nC x ↔ AllDotZero L nC x) := by
  intro i
  induction i with
  | zero =>
    intro _
    exact Iff.rfl
  | succ i ih =>
    intro hi
    obtain ⟨hlen, hWM, hpre⟩ := echelon_invariant nC L hW i (by omega)
    set nR := L.length with hnR
    set M := stepsUpTo nR nC L i with hM
    have hiR : i < nR := by omega
    have hiC : i < nC := by omega
    obtain ⟨hfm1, hfm2, hfm3, hfm4⟩ := findMax_spec M i nR hiR
    set mr := (findMax M i nR).2 with hmr
    have hswap_eq : swapStep M i mr nC = swapRowsFullSpec M i mr :=
      swapStep_eq_full nC M hWM i mr (by omega) (by omega)
        (fun c hc => hpre i c hc hc (by omega))
        (fun c hc => hpre mr c hc (by omega) (by omega))
    set M1 := swapStep M i mr nC with hM1
    have hM1len : M1.length = nR := by
      rw [hM1, swapStep_length]
      exact hlen
    have hM1WF : WF nC M1 := swapStep_WF hWM i mr
    have hswap_iff : AllDotZero M1 nC x ↔ AllDotZero M nC x := by
      rw [hswap_eq]
      exact AllDotZero_swapFull M i mr (by omega) (by omega) nC x
    have hpre1 : ∀ r c, c < i → c < r → r < nR → ent M1 r c = 0 := by
      intro r c hc hcr hrR
      rw [hM1, ent_swapStep hWM (by omega) (by omega) i mr]
      split
      · rw [if_neg (by omega)]
        exact hpre i c hc (by omega) (by omega)
      · split
        · rw [if_neg (by omega)]
          exact hpre mr c hc (by omega) (by omega)
        · exact hpre r c hc hcr hrR
    have hfold_iff : AllDotZero (elimBelow M1 i nR nC) nC x ↔ AllDotZero M1 nC x :=
      AllDotZero_elimFold nC nR i M1
        (fun c hc => hpre1 i c hc hc (by omega))
        (fun r c hc hir hrR => hpre1 r c hc (by omega) hrR)
        x
        (List.range' (i + 1) (nR - (i + 1))) M1
        (fun k hk => by
          rw [List.mem_range'_1] at hk
          omega)
        (List.nodup_range' _ _)
        hM1len hM1WF hiR rfl (fun _ _ => rfl)
    have hstep : stepsUpTo nR nC L (i + 1) = elimBelow M1 i nR nC := by
      rw [stepsUpTo_succ]
      rfl
    rw [hstep]
    exact hfold_iff.trans (hswap_iff.trans (ih (by omega)))

/-! ### Full rank forces every pivot to be nonzero -/

/-- The coefficient part of the augmented matrix `L` (its first `n`
columns) has trivial kernel: this is "square and full rank" for an
`n × (n+1)` augmented system. -/
def KerTrivial (n : ℕ) (L : Mat) : Prop :=
  ∀ x : ℕ → ℚ, (∀ j, n ≤ j → x j = 0) →
    (∀ r, r < n → ∑ j ∈ Finset.range n, ent L r j * x j = 0) → ∀ j, x j = 0

/-- A homogeneous system of `i` equations in `i+1` unknowns has a nonzero
solution. -/
theorem exists_nonzero_kernel_vec (i : ℕ) (B : Matrix (Fin i) (Fin (i + 1)) ℚ) :
    ∃ v : Fin (i + 1) → ℚ, v ≠ 0 ∧ B.mulVec v = 0 := by
  have hnotinj : ¬Function.Injective (Matrix.mulVecLin B) := by
    intro hinj
    have h1 := LinearMap.finrank_le_finrank_of_injective hinj
    rw [Module.finrank_fin_fun, Module.finrank_fin_fun] at h1
    omega
  obtain ⟨a, b, hab, hne⟩ := Function.not_injective_iff.mp hnotinj
  refine ⟨a - b, sub_ne_zero.mpr hne, ?_⟩
  have h2 : Matrix.mulVecLin B (a - b) = 0 := by
    rw [map_sub, hab, sub_self]
  simpa [Matrix.mulVecLin_apply] using h2

/-- If the coefficient part of `L` has trivial kernel, then at every pivot
step the swapped-in pivot is nonzero. -/
theorem pivot_nonzero_step (n : ℕ) (L : Mat) (hn : 0 < n) (hlen : L.length = n)
    (hW : WF (n + 1) L) (hker : KerTrivial n L) (i : ℕ) (hi : i < n) :
    ent (swapStep (stepsUpTo L.length (n + 1) L i) i
      (findMax (stepsUpTo L.length (n + 1) L i) i L.length).2 (n + 1)) i i ≠ 0 := by
  have hminn : min (n + 1) L.length = n := by omega
  obtain ⟨hMlen, hWM, hpre⟩ := echelon_invariant (n + 1) L hW i (by omega)
  set M := stepsUpTo L.length (n + 1) L i with hM
  obtain ⟨hfm1, hfm2, hfm3, hfm4⟩ := findMax_spec M i L.length (by omega)
  set mr := (findMax M i L.length).2 with hmr
  intro hcontra
  have hpivvals : ent (swapStep M i mr (n + 1)) i i = ent M mr i := by
    rw [ent_swapStep hWM (by omega) (by omega) i mr, if_pos rfl, if_pos (le_refl i)]
  rw [hpivvals] at hcontra
  have hcolzero : ∀ k, i ≤ k → k < n → ent M k i = 0 := by
    intro k hik hkn
    have h1 : |ent M k i| ≤ (findMax M i L.length).1 := hfm4 k hik (by omega)
    rw [hfm1, hcontra, abs_zero] at h1
    exact abs_eq_zero.mp (le_antisymm h1 (abs_nonneg _))
  set B : Matrix (Fin i) (Fin (i + 1)) ℚ := fun r j => ent M r.1 j.1 with hB
  obtain ⟨v, hvne, hv0⟩ := exists_nonzero_kernel_vec i B
  set x : ℕ → ℚ := fun j => if h : j < i + 1 then v ⟨j, h⟩ else 0 with hx
  have hxbig : ∀ j, i + 1 ≤ j → x j = 0 := by
    intro j hj
    rw [hx]
    exact dif_neg (by omega)
  have hAD : AllDotZero M (n + 1) x := by
    intro r hr
    rw [hMlen, hlen] at hr
    unfold rowDotAll
    have hsub : ∑ j ∈ Finset.range (n + 1), (M.getD r []).getD j 0 * x j =
        ∑ j ∈ Finset.range (i + 1), (M.getD r []).getD j 0 * x j := by
      refine (Finset.sum_subset (Finset.range_subset.mpr (by omega)) ?_).symm
      intro j _ hj2
      rw [Finset.mem_range] at hj2
      rw [hxbig j (by omega), mul_zero]
    rw [hsub]
    by_cases hri : r < i
    · have hfin : ∑ j ∈ Finset.range (i + 1), (M.getD r []).getD j 0 * x j =
          ∑ j : Fin (i + 1), B ⟨r, hri⟩ j * v j := by
        rw [Finset.sum_range]
        refine Finset.sum_congr rfl ?_
        intro j _
        have hxj : x j.1 = v j := by
          show (if h : (j : ℕ) < i + 1 then v ⟨j.1, h⟩ else 0) = v j
          rw [dif_pos j.2]
        rw [hxj]
        rfl
      rw [hfin]
      have := congrFun hv0 ⟨r, hri⟩
      simpa [Matrix.mulVec, Matrix.dotProduct] using this
    · refine Finset.sum_eq_zero ?_
      intro j hj
      rw [Finset.mem_range] at hj
      by_cases hji : j < i
      · rw [show (M.getD r []).getD j 0 = ent M r j from rfl,
          hpre r j hji (by omega) (by omega), zero_mul]
      · have hjeq : j = i := by omega
        subst hjeq
        rw [show (M.getD r []).getD j 0 = ent M r j from rfl,
          hcolzero r (by omega) (by omega), zero_mul]
  have hADL : AllDotZero L (n + 1) x :=
    (AllDotZero_stepsUpTo (n + 1) L hW x i (by omega)).mp hAD
  have hhom : ∀ r, r < n → ∑ j ∈ Finset.range n, ent L r j * x j = 0 := by
    intro r hr
    have := hADL r (by omega)
    unfold rowDotAll at this
    rw [Finset.sum_range_succ] at this
    rw [show ((L.getD r []).getD n 0 : ℚ) * x n = 0 by
      rw [hxbig n (by omega), mul_zero]] at this
    rw [add_zero] at this
    exact this
  have hall := hker x (fun j hj => hxbig j (by omega)) hhom
  obtain ⟨j0, hj0⟩ := Function.ne_iff.mp hvne
  have : x j0.1 = v j0 := by
    show (if h : (j0 : ℕ) < i + 1 then v ⟨j0.1, h⟩ else 0) = v j0
    rw [dif_pos j0.2]
  rw [hall j0.1] at this
  exact hj0 this.symm

/-- Rows strictly above the current pivot are never modified again. -/
theorem elimBelow_row_untouched (M : Mat) (i nR nC r : ℕ) (hr : r ≤ i) :
    (elimBelow M i nR nC).getD r [] = M.getD r [] := by
  unfold elimBelow
  have hks : ∀ k ∈ List.range' (i + 1) (nR - (i + 1)), r ≠ k := by
    intro k hk
    rw [List.mem_range'_1] at hk
    omega
  revert hks
  generalize List.range' (i + 1) (nR - (i + 1)) = ks
  intro hks
  induction ks generalizing M with
  | nil => rfl
  | cons k ks ih =>
    rw [List.foldl_cons]
    rw [ih (elimRow M i k nC) (fun k' hk' => hks k' (List.mem_cons_of_mem k hk'))]
    exact elimRow_row_untouched M i k nC r (hks k (List.mem_cons_self k ks))

/-- One pivot iteration leaves all rows above the pivot untouched. -/
theorem pivotStep_row_stable (nC : ℕ) (L : Mat) (hW : WF nC L) (j : ℕ)
    (hj : j < min nC L.length) (r : ℕ) (hr : r < j) :
    (stepsUpTo L.length nC L (j + 1)).getD r [] =
      (stepsUpTo L.length nC L j).getD r [] := by
  obtain ⟨hMlen, hWM, _⟩ := echelon_invariant nC L hW j (le_of_lt hj)
  set M := stepsUpTo L.length nC L j with hM
  obtain ⟨_, hfm2, hfm3, _⟩ := findMax_spec M j L.length (by omega)
  rw [stepsUpTo_succ]
  have hstep : pivotStep L.length nC M j =
      elimBelow (swapStep M j (findMax M j L.length).2 nC) j L.length nC := rfl
  rw [hstep, elimBelow_row_untouched _ j _ _ r (by omega)]
  rw [swapStep_row M j (findMax M j L.length).2 nC r (by omega)]
  rw [if_neg (by omega), if_neg (by omega)]

/-- Rows above `i` are stable from step `i` on. -/
theorem stepsUpTo_row_stable (nC : ℕ) (L : Mat) (hW : WF nC L) :
    ∀ j i, i ≤ j → j ≤ min nC L.length → ∀ r, r < i →
      (stepsUpTo L.length nC L j).getD r [] =
        (stepsUpTo L.length nC L i).getD r [] := by
  intro j
  induction j with
  | zero =>
    intro i hij _ r _
    rw [Nat.le_zero.mp hij]
  | succ j ih =>
    intro i hij hjmin r hr
    by_cases he : i = j + 1
    · rw [he]
    · have h1 : i ≤ j := by omega
      rw [pivotStep_row_stable nC L hW j (by omega) r (by omega)]
      exact ih i h1 (by omega) r hr

/-- Under full rank, the final matrix of the pivot loop has a nonzero
diagonal. -/
theorem diag_nonzero (n : ℕ) (L : Mat) (hn : 0 < n) (hlen : L.length = n)
    (hW : WF (n + 1) L) (hker : KerTrivial n L) :
    ∀ i, i < n → ent (stepsUpTo L.length (n + 1) L n) i i ≠ 0 := by
  intro i hi
  have hpiv := pivot_nonzero_step n L hn hlen hW hker i hi
  set M := stepsUpTo L.length (n + 1) L i with hM
  set mr := (findMax M i L.length).2 with hmr
  have hrowstab : (stepsUpTo L.length (n + 1) L n).getD i [] =
      (stepsUpTo L.length (n + 1) L (i + 1)).getD i [] :=
    stepsUpTo_row_stable (n + 1) L hW n (i + 1) (by omega) (by omega) i (by omega)
  have hstep : stepsUpTo L.length (n + 1) L (i + 1) =
      elimBelow (swapStep M i mr (n + 1)) i L.length (n + 1) := by
    rw [stepsUpTo_succ]
    rfl
  have hrow_i : (stepsUpTo L.length (n + 1) L (i + 1)).getD i [] =
      (swapStep M i mr (n + 1)).getD i [] := by
    rw [hstep]
    exact elimBelow_row_untouched _ i _ _ i (le_refl i)
  show (((stepsUpTo L.length (n + 1) L n).getD i []).getD i 0 : ℚ) ≠ 0
  rw [hrowstab, hrow_i]
  exact hpiv

/-! ### Deduplication is the identity on pairwise-distinct rows -/

theorem dedupInner_id (i : ℕ) : ∀ (L : Mat) (j : ℕ),
    (∀ k, j ≤ k → k < L.length → L.getD i [] ≠ L.getD k []) → dedupInner i L j = L := by
  intro L j
  induction L, j using dedupInner.induct i with
  | case1 L j hj heq ih =>
    intro h
    exact absurd heq (h j (le_refl j) hj)
  | case2 L j hj heq ih =>
    intro h
    rw [dedupInner]
    simp only [dif_pos hj, if_neg heq]
    exact ih (fun k hk1 hk2 => h k (by omega) hk2)
  | case3 L j hj =>
    intro _
    rw [dedupInner]
    simp only [dif_neg hj]

theorem dedupOuter_id_fuel : ∀ (fuel : ℕ) (L : Mat) (i : ℕ), L.length ≤ i + fuel →
    (∀ r s, r < s → s < L.length → L.getD r [] ≠ L.getD s []) → dedupOuter L i = L := by
  intro fuel
  induction fuel with
  | zero =>
    intro L i hfi _
    rw [dedupOuter]
    rw [dif_neg (by omega)]
  | succ fuel ih =>
    intro L i hfi h
    rw [dedupOuter]
    by_cases hi : i < L.length
    · rw [dif_pos hi]
      rw [dedupInner_id i L (i + 1) (fun k hk1 hk2 => h i k (by omega) hk2)]
      exact ih L (i + 1) (by omega) h
    · rw [dif_neg hi]

theorem remove_duplicate_id (L : Mat)
    (h : ∀ r s, r < s → s < L.length → L.getD r [] ≠ L.getD s []) :
    remove_duplicate_row_echelon_form L = L :=
  dedupOuter_id_fuel L.length L 0 (by omega) h

/-! ### Back-substitution on a triangular matrix with nonzero diagonal -/

theorem updateRhs_length (nC i : ℕ) (v : ℚ) (R : Mat) :
    (updateRhs nC i v R).length = R.length := idxMap_length _ _

theorem updateRhs_row (nC i : ℕ) (v : ℚ) (R : Mat) (r : ℕ) (hr : r < R.length) :
    (updateRhs nC i v R).getD r [] =
      if r < i then
        (R.getD r []).set (nC - 1)
          ((R.getD r []).getD (nC - 1) 0 - (R.getD r []).getD i 0 * v)
      else R.getD r [] := by
  unfold updateRhs
  rw [idxMap_getD, if_pos hr]

theorem updateRhs_WF {nC : ℕ} {R : Mat} (hW : WF nC R) (i : ℕ) (v : ℚ) :
    WF nC (updateRhs nC i v R) := by
  intro row hrow
  obtain ⟨r, hr, hval⟩ := List.getElem_of_mem hrow
  rw [updateRhs_length] at hr
  have hrw := updateRhs_row nC i v R r hr
  rw [getD_eq_getElem_of_lt _ [] (by rwa [updateRhs_length])] at hrw
  rw [← hval, hrw]
  split
  · rw [List.length_set]
    exact hW.row_length hr
  · exact hW.row_length hr

theorem ent_updateRhs {nC : ℕ} {R : Mat} (hW : WF nC R) (hnC : 0 < nC)
    (i : ℕ) (v : ℚ) (r c : ℕ) (hr : r < R.length) :
    ent (updateRhs nC i v R) r c =
      if r < i ∧ c = nC - 1 then ent R r (nC - 1) - ent R r i * v
      else ent R r c := by
  unfold ent
  rw [updateRhs_row nC i v R r hr]
  by_cases h1 : r < i
  · rw [if_pos h1, getD_set]
    rw [hW.row_length hr]
    by_cases h2 : c = nC - 1
    · rw [if_pos ⟨h2, by omega⟩, if_pos ⟨h1, h2⟩]
    · rw [if_neg (fun h => h2 h.1), if_neg (fun h => h2 h.2)]
  · rw [if_neg h1, if_neg (fun h => h1 h.1)]

/-- Correctness of the back-substitution loop on matrices whose relevant
diagonal entries are nonzero: the counter-`m` run solves rows `0..m-1` with
respect to the right-hand sides current at entry, never deletes a slot, and
leaves slots `≥ m` alone. -/
theorem backSub_spec (n : ℕ) (U : Mat) (hdiag : ∀ i, i < n → ent U i i ≠ 0) :
    ∀ m, m ≤ n → ∀ (R : Mat) (x : List ℚ), R.length = n → WF (n + 1) R →
      x.length = n →
      (∀ r c, r < n → c < n → ent R r c = ent U r c) →
      (backSub (n + 1) m (R, x)).2.length = n ∧
      (∀ j, m ≤ j → j < n →
        (backSub (n + 1) m (R, x)).2.getD j 0 = x.getD j 0) ∧
      (∀ i, i < m →
        ∑ j ∈ Finset.Ico i m, ent R i j * (backSub (n + 1) m (R, x)).2.getD j 0 =
          ent R i (n + 1 - 1)) := by
  intro m
  induction m with
  | zero =>
    intro _ R x _ _ hx _
    exact ⟨hx, fun _ _ _ => rfl, by omega⟩
  | succ m ih =>
    intro hm R x hRlen hWR hxlen hcoeff
    have hq : min m (n + 1 - 2) = m := by omega
    have hnz : ¬ent R m (min m (n + 1 - 2)) = 0 := by
      rw [hq, hcoeff m m (by omega) (by omega)]
      exact hdiag m (by omega)
    have hred : backSub (n + 1) (m + 1) (R, x) =
        backSub (n + 1) m
          (updateRhs (n + 1) m (ent R m (n + 1 - 1) / ent R m (min m (n + 1 - 2))) R,
            x.set m (ent R m (n + 1 - 1) / ent R m (min m (n + 1 - 2)))) := by
      rw [backSub]
      dsimp only
      rw [if_neg hnz]
    set v : ℚ := ent R m (n + 1 - 1) / ent R m (min m (n + 1 - 2)) with hv
    set R' : Mat := updateRhs (n + 1) m v R with hR'
    set x1 : List ℚ := x.set m v with hx1
    have hR'len : R'.length = n := by rw [hR', updateRhs_length, hRlen]
    have hWR' : WF (n + 1) R' := updateRhs_WF hWR m v
    have hx1len : x1.length = n := by rw [hx1, List.length_set, hxlen]
    have hcoeff' : ∀ r c, r < n → c < n → ent R' r c = ent U r c := by
      intro r c hrn hcn
      rw [hR', ent_updateRhs hWR (by omega) m v r c (by omega)]
      rw [if_neg (by omega)]
      exact hcoeff r c hrn hcn
    obtain ⟨g1, g2, g3⟩ := ih (by omega) R' x1 hR'len hWR' hx1len hcoeff'
    have hxm : (backSub (n + 1) m (R', x1)).2.getD m 0 = v := by
      rw [g2 m (le_refl m) (by omega), hx1, getD_set, if_pos ⟨rfl, by omega⟩]
    refine ⟨?_, ?_, ?_⟩
    · rw [hred]
      exact g1
    · intro j hj1 hj2
      rw [hred, g2 j (by omega) hj2, hx1, getD_set, if_neg (by omega)]
    · intro i hi
      by_cases hieq : i = m
      · subst hieq
        rw [hred]
        rw [Finset.sum_Ico_succ_top (le_refl i), Finset.Ico_self, Finset.sum_empty,
          zero_add, hxm, hv, hq]
        rw [mul_comm, div_mul_cancel₀ _ (by rw [hq] at hnz; exact hnz)]
      · have him : i < m := by omega
        have hIH := g3 i him
        have hcoeffIco : ∀ j ∈ Finset.Ico i m, ent R' i j = ent R i j := by
          intro j hj
          rw [Finset.mem_Ico] at hj
          rw [hR', ent_updateRhs hWR (by omega) m v i j (by omega)]
          rw [if_neg (by omega)]
        have hrhs : ent R' i (n + 1 - 1) = ent R i (n + 1 - 1) - ent R i m * v := by
          rw [hR', ent_updateRhs hWR (by omega) m v i (n + 1 - 1) (by omega)]
          rw [if_pos ⟨him, rfl⟩]
        rw [Finset.sum_congr rfl
          (fun j hj => by rw [hcoeffIco j hj]) ] at hIH
        rw [hrhs] at hIH
        rw [hred]
        rw [Finset.sum_Ico_succ_top (by omega : i ≤ m), hIH, hxm]
        ring

theorem completeBasis_noop (R : Mat)
    (h : ¬((R.length : ℤ) < ((R.getD 0 []).length : ℤ) - 1)) : completeBasis R = R := by
  unfold completeBasis
  rw [if_neg h]

/-- On a square triangular augmented matrix with nonzero diagonal,
`solve_row_echelon_form` goes down the back-substitution branch and returns
a full-length solution of every row. -/
theorem solve_on_triangular (n : ℕ) (U : Mat) (hn : 0 < n) (hUlen : U.length = n)
    (hWU : WF (n + 1) U) (hdiag : ∀ i, i < n → ent U i i ≠ 0)
    (hupper : ∀ r c, c < n → c < r → r < n → ent U r c = 0) :
    ∃ xs : List ℚ, solve_row_echelon_form U = SolveResult.vec (xs.map some) ∧
      xs.length = n ∧
      (∀ i, i < n → ∑ j ∈ Finset.range n, ent U i j * xs.getD j 0 = ent U i n) := by
  have hcols : (U.getD 0 []).length = n + 1 := hWU.row_length (by omega)
  have hnoop : completeBasis U = U := completeBasis_noop U (by
    rw [hcols, hUlen]
    push_cast
    omega)
  obtain ⟨g1, g2, g3⟩ := backSub_spec n U hdiag n (le_refl n) U (List.replicate n 0)
    hUlen hWU (by simp) (fun _ _ _ _ => rfl)
  refine ⟨(backSub (n + 1) n (U, List.replicate n 0)).2, ?_, g1, ?_⟩
  · unfold solve_row_echelon_form
    rw [if_neg (by rw [hUlen]; omega)]
    rw [hnoop]
    dsimp only
    rw [hUlen, hcols]
    rw [if_neg (by push_cast; omega)]
  · intro i hi
    have h1 := g3 i hi
    have hsplit : ∑ j ∈ Finset.range n,
        ent U i j * (backSub (n + 1) n (U, List.replicate n 0)).2.getD j 0 =
        ∑ j ∈ Finset.Ico i n,
          ent U i j * (backSub (n + 1) n (U, List.replicate n 0)).2.getD j 0 := by
      rw [Finset.range_eq_Ico,
        ← Finset.sum_Ico_consecutive _ (Nat.zero_le i) (le_of_lt hi)]
      have hzero : ∑ j ∈ Finset.Ico 0 i,
          ent U i j * (backSub (n + 1) n (U, List.replicate n 0)).2.getD j 0 = 0 :=
        Finset.sum_eq_zero (fun j hj => by
          rw [Finset.mem_Ico] at hj
          rw [hupper i j (by omega) (by omega) hi, zero_mul])
      rw [hzero, zero_add]
    rw [hsplit]
    exact h1

/-- C1: for every square, full-rank system (an `n × (n+1)` augmented
matrix `L = [A | b]` over exact rationals whose coefficient part has
trivial kernel), `gauss_eliminate` returns the unique solution vector:
a list `xs` of length `n` with `A·xs = b` row by row, and any other
solution equals it. -/
theorem gauss_eliminate_full_rank (L : Mat) (n : ℕ) (hn : 0 < n)
    (hlen : L.length = n) (hW : ∀ row ∈ L, row.length = n + 1)
    (hker : KerTrivial n L) :
    ∃ xs : List ℚ,
      gauss_eliminate L = SolveResult.vec (xs.map some) ∧
      xs.length = n ∧
      (∀ r, r < n → ∑ j ∈ Finset.range n, ent L r j * xs.getD j 0 = ent L r n) ∧
      (∀ ys : List ℚ, ys.length = n →
        (∀ r, r < n → ∑ j ∈ Finset.range n, ent L r j * ys.getD j 0 = ent L r n) →
        ys = xs) := by
  have hWf : WF (n + 1) L := hW
  have hcols0 : (L.getD 0 []).length = n + 1 := hWf.row_length (by omega)
  have hmin : min (n + 1) L.length = n := by omega
  set U : Mat := stepsUpTo L.length (n + 1) L n with hU
  have hechelon : echelonLoop L = U := by
    rw [echelonLoop_eq_stepsUpTo, hcols0, hmin]
  obtain ⟨hUlen0, hWU, hupper0⟩ := echelon_invariant (n + 1) L hWf n (by omega)
  have hUlen : U.length = n := by
    rw [hU]
    omega
  have hupper : ∀ r c, c < n → c < r → r < n → ent U r c = 0 := by
    intro r c hc hcr hrn
    exact hupper0 r c hc hcr (by omega)
  have hdiagU : ∀ i, i < n → ent U i i ≠ 0 := diag_nonzero n L hn hlen hWf hker
  have hdistinct : ∀ r s, r < s → s < U.length → U.getD r [] ≠ U.getD s [] := by
    intro r s hrs hsU heq
    have hsn : s < n := by omega
    have hrn : r < n := by omega
    have h1 : ent U r r ≠ 0 := hdiagU r hrn
    have h2 : ent U s r = 0 := hupper s r hrn hrs hsn
    have h3 : ent U r r = ent U s r := by
      show (U.getD r []).getD r 0 = (U.getD s []).getD r 0
      rw [heq]
    rw [h3, h2] at h1
    exact h1 rfl
  have hdedup : remove_duplicate_row_echelon_form U = U := remove_duplicate_id U hdistinct
  have hrowech : row_echelon_form L = some U := by
    unfold row_echelon_form
    rw [if_neg (by rw [hlen]; omega), hechelon, hdedup]
  have hgauss : gauss_eliminate L = solve_row_echelon_form U := by
    unfold gauss_eliminate
    rw [hrowech]
  obtain ⟨xs, hsolve, hxslen, hUsol⟩ :=
    solve_on_triangular n U hn hUlen hWU hdiagU hupper
  have hxhat : ∀ (zs : List ℚ), zs.length = n →
      (∀ i, i < n → ∑ j ∈ Finset.range n, ent U i j * zs.getD j 0 = ent U i n) →
      (∀ r, r < n → ∑ j ∈ Finset.range n, ent L r j * zs.getD j 0 = ent L r n) := by
    intro zs _ hUz
    set z : ℕ → ℚ := fun j => if j < n then zs.getD j 0 else if j = n then -1 else 0
      with hz
    have hADU : AllDotZero U (n + 1) z := by
      intro r hr
      rw [hUlen] at hr
      unfold rowDotAll
      rw [Finset.sum_range_succ]
      have hzn : z n = -1 := by
        show (if n < n then zs.getD n 0 else if n = n then -1 else 0) = -1
        rw [if_neg (by omega), if_pos rfl]
      have hmain : ∑ j ∈ Finset.range n, (U.getD r []).getD j 0 * z j =
          ∑ j ∈ Finset.range n, ent U r j * zs.getD j 0 := by
        refine Finset.sum_congr rfl ?_
        intro j hj
        rw [Finset.mem_range] at hj
        have : z j = zs.getD j 0 := by
          show (if j < n then zs.getD j 0 else if j = n then -1 else 0) = zs.getD j 0
          rw [if_pos hj]
        rw [this]
        rfl
      rw [hmain, hzn, hUz r hr]
      show (ent U r n : ℚ) + ent U r n * (-1) = 0
      ring
    have hADL : AllDotZero L (n + 1) z :=
      (AllDotZero_stepsUpTo (n + 1) L hWf z n (by omega)).mp hADU
    intro r hr
    have := hADL r (by omega)
    unfold rowDotAll at this
    rw [Finset.sum_range_succ] at this
    have hzn : z n = -1 := by
      show (if n < n then zs.getD n 0 else if n = n then -1 else 0) = -1
      rw [if_neg (by omega), if_pos rfl]
    have hmain : ∑ j ∈ Finset.range n, (L.getD r []).getD j 0 * z j =
        ∑ j ∈ Finset.range n, ent L r j * zs.getD j 0 := by
      refine Finset.sum_congr rfl ?_
      intro j hj
      rw [Finset.mem_range] at hj
      have : z j = zs.getD j 0 := by
        show (if j < n then zs.getD j 0 else if j = n then -1 else 0) = zs.getD j 0
        rw [if_pos hj]
      rw [this]
      rfl
    rw [hmain, hzn] at this
    have h2 : ((L.getD r []).getD n 0 : ℚ) = ent L r n := rfl
    rw [h2] at this
    linarith [this]
  have hLsol : ∀ r, r < n → ∑ j ∈ Finset.range n, ent L r j * xs.getD j 0 = ent L r n :=
    hxhat xs hxslen hUsol
  refine ⟨xs, by rw [hgauss]; exact hsolve, hxslen, hLsol, ?_⟩
  intro ys hyslen hysol
  set d : ℕ → ℚ := fun j => if j < n then ys.getD j 0 - xs.getD j 0 else 0 with hd
  have hdsupp : ∀ j, n ≤ j → d j = 0 := by
    intro j hj
    show (if j < n then ys.getD j 0 - xs.getD j 0 else 0) = 0
    rw [if_neg (by omega)]
  have hdhom : ∀ r, r < n → ∑ j ∈ Finset.range n, ent L r j * d j = 0 := by
    intro r hr
    have hsum : ∑ j ∈ Finset.range n, ent L r j * d j =
        (∑ j ∈ Finset.range n, ent L r j * ys.getD j 0) -
          ∑ j ∈ Finset.range n, ent L r j * xs.getD j 0 := by
      rw [← Finset.sum_sub_distrib]
      refine Finset.sum_congr rfl ?_
      intro j hj
      rw [Finset.mem_range] at hj
      have : d j = ys.getD j 0 - xs.getD j 0 := by
        show (if j < n then ys.getD j 0 - xs.getD j 0 else 0) = _
        rw [if_pos hj]
      rw [this]
      ring
    rw [hsum, hysol r hr, hLsol r hr, sub_self]
  have hdzero := hker d hdsupp hdhom
  apply list_eq_of_getD (by omega)
  intro c hc
  have := hdzero c
  rw [hd] at this
  simp only at this
  rw [if_pos (by omega : c < n)] at this
  linarith [this]

/-- Witness for `gauss_eliminate_full_rank` at the fully determined system
`2x₁ + x₂ = 5`, `x₁ + 3x₂ = 10`, whose unique solution is `(1, 3)`. -/
theorem gauss_eliminate_full_rank_witness :
    (∃ xs : List ℚ,
      gauss_eliminate [[2, 1, 5], [1, 3, 10]] = SolveResult.vec (xs.map some) ∧
      xs.length = 2 ∧
      (∀ r, r < 2 → ∑ j ∈ Finset.range 2,
        ent [[2, 1, 5], [1, 3, 10]] r j * xs.getD j 0 = ent [[2, 1, 5], [1, 3, 10]] r 2) ∧
      (∀ ys : List ℚ, ys.length = 2 →
        (∀ r, r < 2 → ∑ j ∈ Finset.range 2,
          ent [[2, 1, 5], [1, 3, 10]] r j * ys.getD j 0 = ent [[2, 1, 5], [1, 3, 10]] r 2) →
        ys = xs)) ∧
    gauss_eliminate [[2, 1, 5], [1, 3, 10]] = SolveResult.vec [some 1, some 3] := by
  constructor
  · refine gauss_eliminate_full_rank [[2, 1, 5], [1, 3, 10]] 2 (by decide) (by decide)
      (by decide) ?_
    intro x hsupp hrows j
    have h0 := hrows 0 (by omega)
    have h1 := hrows 1 (by omega)
    rw [Finset.sum_range_succ, Finset.sum_range_succ, Finset.sum_range_zero] at h0 h1
    have e00 : ent [[(2 : ℚ), 1, 5], [1, 3, 10]] 0 0 = 2 := rfl
    have e01 : ent [[(2 : ℚ), 1, 5], [1, 3, 10]] 0 1 = 1 := rfl
    have e10 : ent [[(2 : ℚ), 1, 5], [1, 3, 10]] 1 0 = 1 := rfl
    have e11 : ent [[(2 : ℚ), 1, 5], [1, 3, 10]] 1 1 = 3 := rfl
    rw [e00, e01] at h0
    rw [e10, e11] at h1
    match j with
    | 0 => linarith
    | 1 => linarith
    | (j + 2) => exact hsupp (j + 2) (by omega)
  · with_unfolding_all decide
